import Mathlib

/-!
# Virtual-memory page-fault handlers (`src/main.cpp`)

A shallow embedding of the three page-fault handlers of `main.cpp`
(`random_handler`, `fifo_handler`, `custom_handler`) together with the global
variables they mutate, and theorems about the page-replacement behaviour.

Conventions of the embedding:

* the global variables and the page table / disk the handlers touch are
  gathered in the record `State`; a handler is a function
  `State → Nat → Option State`, where `none` stands for every way the C++
  code fails to return normally (an abort inside the page-table or disk
  library, an out-of-bounds array access, a division by zero, a loop that
  never ends);
* the counters (`current_frames`, `page_faults`, `disk_reads`, `disk_writes`)
  start at `0` and are only ever incremented, so they are natural numbers;
  `int` overflow of the counters is not modelled;
* `fifo_index` is an integer and `%` on it is C++ truncating remainder
  (`Int.tmod`), so that `(0 - 1) % nframes` is `-1` as in the source;
* the contents of a disk block or of a physical frame is one natural number.
-/

namespace VirtMem

/-! ## Constants, page table and disk -/

/-- Modelled from the spec: the header `sys/mman.h` is not part of the sources;
`PROT_READ` marks a page loaded for reading (Resident-Clean). Value as on Linux. -/
def PROT_READ : Nat := 1

/-- Modelled from the spec: the header `sys/mman.h` is not part of the sources;
`PROT_READ|PROT_WRITE` marks a written page (Resident-Dirty). Value as on Linux. -/
def PROT_WRITE : Nat := 2

/-- The globals of `main.cpp` (lines 24-43) and the parts of `struct page_table`
and `struct disk` the handlers use. `rand` is the stream of values the
successive calls of `rand()` will return. -/
structure State where
  /-- Number of virtual pages, `page_table_get_npages(pt)`; the disk has as many blocks. -/
  npages : Nat
  /-- Number of physical frames, `page_table_get_nframes(pt)`. -/
  nframes : Nat
  /-- The array `pt->page_mapping`: frame stored for each page. -/
  page_mapping : Nat → Nat
  /-- The array `pt->page_bits`: protection bits of each page. -/
  page_bits : Nat → Nat
  /-- Contents of each physical frame, `page_table_get_physmem(pt) + frame*BLOCK_SIZE`. -/
  physmem : Nat → Nat
  /-- Contents of each disk block. -/
  disk : Nat → Nat
  current_frames : Nat
  page_faults : Nat
  disk_reads : Nat
  disk_writes : Nat
  fifo_index : Int
  bififo_direction : Bool
  /-- Values still to be returned by `rand()`. -/
  rand : List Nat

/-- Modelled from the spec: `page_table.h` is not part of the sources. `entry(page) -> (frame, state)`:
the stored frame and bits of a page; a page index outside `[0, npages)` is an error. -/
def page_table_get_entry (s : State) (page : Nat) : Option (Nat × Nat) :=
  if page < s.npages then some (s.page_mapping page, s.page_bits page) else none

/-- Modelled from the spec: `page_table.h` is not part of the sources. `setEntry(page, frame, state)`:
overwrite the frame and bits of a page; a page index outside `[0, npages)` is an error. -/
def page_table_set_entry (s : State) (page frame bits : Nat) : Option State :=
  if page < s.npages then
    some { s with
      page_mapping := Function.update s.page_mapping page frame
      page_bits := Function.update s.page_bits page bits }
  else none

/-- Modelled from the spec: `disk.h` is not part of the sources. `write(pageId, srcBuffer)` with the
source buffer `physmem + frame*BLOCK_SIZE`: block `block` of the disk receives the
contents of frame `frame`. The disk has `npages` blocks and physical memory `nframes` frames. -/
def disk_write (s : State) (block frame : Nat) : Option State :=
  if block < s.npages ∧ frame < s.nframes then
    some { s with disk := Function.update s.disk block (s.physmem frame) }
  else none

/-- Modelled from the spec: `disk.h` is not part of the sources. `read(pageId, destBuffer)` with the
destination buffer `physmem + frame*BLOCK_SIZE`: frame `frame` receives the contents of
block `block` of the disk. -/
def disk_read (s : State) (block frame : Nat) : Option State :=
  if block < s.npages ∧ frame < s.nframes then
    some { s with physmem := Function.update s.physmem frame (s.disk block) }
  else none

/-- C++ `a % b` on `int`: truncating remainder, undefined for `b = 0`. -/
def c_mod (a b : Int) : Option Int :=
  if b = 0 then none else some (Int.tmod a b)

/-! ## `random_handler` (lines 64-109) -/

/-- Lines 75-83: `epage = rand() % npages`, repeated `while (ebits == 0)`. Consumes the
draws one by one until one names a page with non-zero bits; gives the page, its frame
and bits, and the draws left. `none` when the stream is used up before the loop ends. -/
def random_pick (s : State) : List Nat → Option (Nat × Nat × Nat × List Nat)
  | [] => none
  | d :: ds =>
    if s.npages = 0 then none
    else
      match page_table_get_entry s (d % s.npages) with
      | none => none
      | some (eframe, ebits) =>
        if ebits = 0 then random_pick s ds else some (d % s.npages, eframe, ebits, ds)

/-- The function `random_handler` of `main.cpp`. -/
def random_handler (s : State) (page : Nat) : Option State := do
  let (frame, bits) ← page_table_get_entry s page
  if bits = 0 then
    let s := { s with page_faults := s.page_faults + 1 }
    if s.current_frames = s.nframes then
      let (epage, eframe, ebits, rest) ← random_pick s s.rand
      let s := { s with rand := rest }
      let s ←
        if ebits = (PROT_READ ||| PROT_WRITE) then do
          let s ← disk_write s epage eframe
          pure { s with disk_writes := s.disk_writes + 1 }
        else pure s
      let s ← page_table_set_entry s epage 0 0
      let s ← page_table_set_entry s page eframe PROT_READ
      let s ← disk_read s page eframe
      pure { s with disk_reads := s.disk_reads + 1 }
    else
      let s ← page_table_set_entry s page s.current_frames PROT_READ
      let s ← disk_read s page s.current_frames
      let s := { s with disk_reads := s.disk_reads + 1 }
      pure { s with current_frames := s.current_frames + 1 }
  else if bits = PROT_READ then
    page_table_set_entry s page frame (PROT_READ ||| PROT_WRITE)
  else pure s

/-! ## `fifo_handler` (lines 111-168) -/

/-- Lines 126-128 and 190-192:
`while ((epage <= npages) && (eframe = pt->page_mapping[epage]) != fifo_index) epage++;`
The first argument is `npages - epage`. When `epage` reaches `npages` the guard
`epage <= npages` still holds and `page_mapping[npages]` is read past the end of the
array: `none`. -/
def frame_scan (s : State) : Nat → Nat → Option Nat
  | 0, _ => none
  | left + 1, epage =>
    if (s.page_mapping epage : Int) ≠ s.fifo_index then frame_scan s left (epage + 1)
    else some epage

/-- Lines 131-138: `page_table_get_entry(pt, epage, &eframe, &ebits)` followed by
`while (ebits == 0) { epage = (epage + 1) % npages; ...; fifo_index = (fifo_index + 1) % nframes; }`.
Gives the final `epage`, `eframe`, `ebits` and `fifo_index`. The loop does not change the
page table, so once it has looked at `npages` entries without finding non-zero bits it
never ends: the first argument counts the entries still to look at, and `0` gives `none`. -/
def fifo_pick_valid (s : State) : Nat → Nat → Int → Option (Nat × Nat × Nat × Int)
  | 0, _, _ => none
  | left + 1, epage, fifo_index =>
    match page_table_get_entry s epage with
    | none => none
    | some (eframe, ebits) =>
      if ebits = 0 then
        match c_mod (fifo_index + 1) s.nframes with
        | none => none
        | some fi => fifo_pick_valid s left ((epage + 1) % s.npages) fi
      else some (epage, eframe, ebits, fifo_index)

/-- The function `fifo_handler` of `main.cpp`. -/
def fifo_handler (s : State) (page : Nat) : Option State := do
  let (frame, bits) ← page_table_get_entry s page
  if bits = 0 then
    let s := { s with page_faults := s.page_faults + 1 }
    if s.current_frames = s.nframes then
      let epage ← frame_scan s s.npages 0
      let (epage, eframe, ebits, fi) ← fifo_pick_valid s s.npages epage s.fifo_index
      let s := { s with fifo_index := fi }
      let s ←
        if ebits = (PROT_READ ||| PROT_WRITE) then do
          let s ← disk_write s epage eframe
          pure { s with disk_writes := s.disk_writes + 1 }
        else pure s
      let s ← page_table_set_entry s epage 0 0
      let s ← page_table_set_entry s page eframe PROT_READ
      let fi ← c_mod (s.fifo_index + 1) s.nframes
      let s := { s with fifo_index := fi }
      let s ← disk_read s page eframe
      pure { s with disk_reads := s.disk_reads + 1 }
    else
      let s ← page_table_set_entry s page s.current_frames PROT_READ
      let s ← disk_read s page s.current_frames
      let s := { s with disk_reads := s.disk_reads + 1 }
      let s := { s with current_frames := s.current_frames + 1 }
      let fi ← c_mod (s.fifo_index + 1) s.nframes
      pure { s with fifo_index := fi }
  else if bits = PROT_READ then
    page_table_set_entry s page frame (PROT_READ ||| PROT_WRITE)
  else pure s

/-! ## `custom_handler` (lines 175-250) -/

/-- Lines 201-211 and 225-235: one update of the hand of the bi-directional FIFO.
`fifo_index` moves by `+1` or `-1` modulo `nframes` according to `bififo_direction`, then
the direction is reversed if the new index is `0` or `nframes - 1`. -/
def bififo_advance (nframes : Nat) (fifo_index : Int) (bififo_direction : Bool) :
    Option (Int × Bool) :=
  match (if bififo_direction then c_mod (fifo_index + 1) nframes
         else c_mod (fifo_index - 1) nframes) with
  | none => none
  | some fi =>
    if fi = 0 ∨ fi = (nframes : Int) - 1 then some (fi, !bififo_direction)
    else some (fi, bififo_direction)

/-- Lines 195-212: `page_table_get_entry(pt, epage, &eframe, &ebits)` followed by
`while (ebits == 0) { epage = (epage + 1) % npages; ...; update fifo_index and direction }`.
Gives the final `epage`, `eframe`, `ebits`, `fifo_index` and `bififo_direction`. As in
`fifo_pick_valid` the first argument counts the entries still to look at. -/
def custom_pick_valid (s : State) :
    Nat → Nat → Int → Bool → Option (Nat × Nat × Nat × Int × Bool)
  | 0, _, _, _ => none
  | left + 1, epage, fifo_index, dir =>
    match page_table_get_entry s epage with
    | none => none
    | some (eframe, ebits) =>
      if ebits = 0 then
        match bififo_advance s.nframes fifo_index dir with
        | none => none
        | some (fi, d) => custom_pick_valid s left ((epage + 1) % s.npages) fi d
      else some (epage, eframe, ebits, fifo_index, dir)

/-- The function `custom_handler` of `main.cpp`. -/
def custom_handler (s : State) (page : Nat) : Option State := do
  let (frame, bits) ← page_table_get_entry s page
  if bits = 0 then
    let s := { s with page_faults := s.page_faults + 1 }
    if s.current_frames = s.nframes then
      let epage ← frame_scan s s.npages 0
      let (epage, eframe, ebits, fi, d) ←
        custom_pick_valid s s.npages epage s.fifo_index s.bififo_direction
      let s := { s with fifo_index := fi, bififo_direction := d }
      let s ←
        if ebits = (PROT_READ ||| PROT_WRITE) then do
          let s ← disk_write s epage eframe
          pure { s with disk_writes := s.disk_writes + 1 }
        else pure s
      let s ← page_table_set_entry s epage 0 0
      let s ← page_table_set_entry s page eframe PROT_READ
      let (fi, d) ← bififo_advance s.nframes s.fifo_index s.bififo_direction
      let s := { s with fifo_index := fi, bififo_direction := d }
      let s ← disk_read s page eframe
      pure { s with disk_reads := s.disk_reads + 1 }
    else
      let s ← page_table_set_entry s page s.current_frames PROT_READ
      let s ← disk_read s page s.current_frames
      let s := { s with disk_reads := s.disk_reads + 1 }
      pure { s with current_frames := s.current_frames + 1 }
  else if bits = PROT_READ then
    page_table_set_entry s page frame (PROT_READ ||| PROT_WRITE)
  else pure s

/-! ## Policies and runs -/

/-- The three replacement policies `main` accepts (`rand`, `fifo`, `custom`). -/
inductive Policy where
  | rand
  | fifo
  | custom
  deriving DecidableEq, Repr

/-- Lines 358-364 of `main`: the handler installed for each policy. -/
def handler : Policy → State → Nat → Option State
  | Policy.rand => random_handler
  | Policy.fifo => fifo_handler
  | Policy.custom => custom_handler

/-- Modelled from the spec: `page_table_create` and `disk_open` are not part of the sources. The state
when the workload starts: every page Unmapped with stored frame `0`, the counters and
the hand at their initial values of lines 27-39. The contents of physical memory and of
the disk, and the values `rand()` will return, are arbitrary. -/
def init (npages nframes : Nat) (physmem disk : Nat → Nat) (draws : List Nat) : State where
  npages := npages
  nframes := nframes
  page_mapping := fun _ => 0
  page_bits := fun _ => 0
  physmem := physmem
  disk := disk
  current_frames := 0
  page_faults := 0
  disk_reads := 0
  disk_writes := 0
  fifo_index := 0
  bififo_direction := true
  rand := draws

/-- The handler called on each page of a sequence of faults, in order. -/
def run (pol : Policy) : State → List Nat → Option State
  | s, [] => some s
  | s, page :: rest =>
    match handler pol s page with
    | none => none
    | some s1 => run pol s1 rest

/-- Number of pages in `[0, npages)` whose bits are non-zero. -/
def resident_count (s : State) : Nat :=
  ((Finset.range s.npages).filter (fun q => s.page_bits q ≠ 0)).card

/-! ## Closed forms of the handlers' three branches (used by the proofs) -/

/-- State after the branch "Not full, filling the frames" taken on `page`, with `fi` the
value of the hand afterwards. -/
def fill_result (s : State) (page : Nat) (fi : Int) : State :=
  { s with
    page_mapping := Function.update s.page_mapping page s.current_frames
    page_bits := Function.update s.page_bits page PROT_READ
    physmem := Function.update s.physmem s.current_frames (s.disk page)
    page_faults := s.page_faults + 1
    disk_reads := s.disk_reads + 1
    current_frames := s.current_frames + 1
    fifo_index := fi }

/-- Disk after the write-back of page `v`, done only when `v` is dirty. -/
def disk_after_evict (s : State) (v : Nat) : Nat → Nat :=
  if s.page_bits v = (PROT_READ ||| PROT_WRITE) then
    Function.update s.disk v (s.physmem (s.page_mapping v))
  else s.disk

/-- State after the branch "Full" taken on `page` when the page evicted is `v`, with
`fi`, `dir` the hand and direction afterwards and `rest` the draws left. -/
def evict_result (s : State) (page v : Nat) (fi : Int) (dir : Bool) (rest : List Nat) : State :=
  { s with
    page_mapping := Function.update (Function.update s.page_mapping v 0) page (s.page_mapping v)
    page_bits := Function.update (Function.update s.page_bits v 0) page PROT_READ
    physmem := Function.update s.physmem (s.page_mapping v) (disk_after_evict s v page)
    disk := disk_after_evict s v
    page_faults := s.page_faults + 1
    disk_reads := s.disk_reads + 1
    disk_writes := if s.page_bits v = (PROT_READ ||| PROT_WRITE) then s.disk_writes + 1
                   else s.disk_writes
    fifo_index := fi
    bififo_direction := dir
    rand := rest }

/-- The hand is a frame index: `0 ≤ fifo_index < nframes`. -/
def hand_in_range (nframes : Nat) (fifo_index : Int) : Prop :=
  0 ≤ fifo_index ∧ fifo_index < nframes

/-- The hand of the bi-directional FIFO is a frame index and, when there are at least two
frames, the direction is Forward at frame `0` and Backward at frame `nframes - 1`. -/
def bififo_ok (nframes : Nat) (fifo_index : Int) (dir : Bool) : Prop :=
  0 ≤ fifo_index ∧ fifo_index < nframes ∧
    (2 ≤ nframes → (fifo_index = 0 → dir = true) ∧ (fifo_index = (nframes : Int) - 1 → dir = false))

/-- State after the write-upgrade of a page whose bits are `PROT_READ`. -/
def upgrade_result (s : State) (page : Nat) : State :=
  { s with
    page_bits := Function.update s.page_bits page (PROT_READ ||| PROT_WRITE)
    page_mapping := Function.update s.page_mapping page (s.page_mapping page) }

/-- Consistency of the page table with the occupancy counter: the invariant every run from
the initial state keeps. -/
structure Inv (s : State) : Prop where
  /-- No more frames are in use than exist. -/
  cf_le : s.current_frames ≤ s.nframes
  /-- The counter is the number of resident pages. -/
  count : resident_count s = s.current_frames
  /-- Resident pages sit in frames already claimed. -/
  frame_lt : ∀ q, q < s.npages → s.page_bits q ≠ 0 → s.page_mapping q < s.current_frames
  /-- No two resident pages share a frame. -/
  inj : ∀ q r, q < s.npages → r < s.npages → s.page_bits q ≠ 0 → s.page_bits r ≠ 0 →
    s.page_mapping q = s.page_mapping r → q = r
  /-- An Unmapped entry stores frame `0`. -/
  unmapped_zero : ∀ q, s.page_bits q = 0 → s.page_mapping q = 0
  /-- The bits of a page are `0`, `PROT_READ` or `PROT_READ|PROT_WRITE`. -/
  bits_cases : ∀ q, s.page_bits q = 0 ∨ s.page_bits q = PROT_READ ∨
    s.page_bits q = (PROT_READ ||| PROT_WRITE)
  /-- Frames are claimed one per miss until all are in use. -/
  faults : s.current_frames = min s.page_faults s.nframes

/-- The invariant on the hand each policy keeps. -/
def hand_ok : Policy → State → Prop
  | Policy.rand, s => s.fifo_index = 0
  | Policy.fifo, s => hand_in_range s.nframes s.fifo_index
  | Policy.custom, s => bififo_ok s.nframes s.fifo_index s.bififo_direction

/-- The states of a run: those the handler of policy `pol` produces from the initial
state of a table with at least one frame, along some sequence of faults. -/
def Reachable (pol : Policy) (s : State) : Prop :=
  ∃ (npages nframes : Nat) (physmem disk : Nat → Nat) (draws ps : List Nat),
    1 ≤ nframes ∧ run pol (init npages nframes physmem disk draws) ps = some s

/-- The page table as a list: stored frame and bits of the pages `0, ..., npages - 1`. -/
def entries (s : State) : List (Nat × Nat) :=
  (List.range s.npages).map (fun q => (s.page_mapping q, s.page_bits q))

/-- The frame each faulting page of a sequence occupies when its handler call returns. On
a miss with all frames in use this is the frame of the page evicted. -/
def frames_given (pol : Policy) : State → List Nat → Option (List Nat)
  | _, [] => some []
  | s, page :: rest =>
    match handler pol s page with
    | none => none
    | some s1 => (frames_given pol s1 rest).map (fun l => s1.page_mapping page :: l)

/-! ## Argument validation of `main` (lines 298-346) -/

/-- Lines 298-346 of `main`: the checks made on the arguments before the disk and the
page table are created. `argv` is the whole argument vector (program name first, so
`argc` is its length) and `atoi` is the C library function. Gives `some 1` when `main`
calls `exit(1)` and `none` when it goes on to `disk_open`. -/
def main_validate (atoi : String → Int) (argv : List String) : Option Nat :=
  if argv.length ≠ 5 then some 1
  else
    let nframes := atoi (argv.getD 2 "")
    let algorithm := argv.getD 3 ""
    let program_name := argv.getD 4 ""
    if algorithm ≠ "rand" ∧ algorithm ≠ "fifo" ∧ algorithm ≠ "custom" then some 1
    else if program_name = "sort" then
      if nframes < 2 then some 1 else none
    else if program_name = "scan" then none
    else if program_name = "focus" then none
    else some 1

/-! ## The workload's stores and the contents of pages -/

/-- Modelled from the spec: the workload programs (`program.h`) are not part of the sources. A store of
the program into a page: it goes through only when the page's bits are
`PROT_READ|PROT_WRITE` (any other store faults first) and overwrites the contents of the
frame the page is mapped to. -/
def program_store (s : State) (page val : Nat) : Option State :=
  if page < s.npages ∧ s.page_bits page = (PROT_READ ||| PROT_WRITE) then
    some { s with physmem := Function.update s.physmem (s.page_mapping page) val }
  else none

/-- What happens during a run of a workload: a page fault, handled by the installed
handler, or a store into a writable page. -/
inductive Event where
  | fault (page : Nat)
  | store (page val : Nat)

/-- The events of a list carried out in order under policy `pol`. -/
def exec (pol : Policy) : State → List Event → Option State
  | s, [] => some s
  | s, Event.fault page :: rest =>
    match handler pol s page with
    | none => none
    | some s1 => exec pol s1 rest
  | s, Event.store page val :: rest =>
    match program_store s page val with
    | none => none
    | some s1 => exec pol s1 rest

/-- The contents of a page as the workload sees them: those of its frame when the page is
resident, those of its disk block otherwise. -/
def page_contents (s : State) (q : Nat) : Nat :=
  if s.page_bits q ≠ 0 then s.physmem (s.page_mapping q) else s.disk q

/-- Every Resident-Clean page's frame holds the contents of the page's disk block. -/
def Coherent (s : State) : Prop :=
  ∀ q, q < s.npages → s.page_bits q = PROT_READ → s.physmem (s.page_mapping q) = s.disk q

/-! ## Scenario: sequential pages, each read then written -/

/-- The reference order of the pages `0, 1, ..., N - 1`, each touched by a read and then a
write: the handler is called twice in a row on each page. -/
def read_write_refs : Nat → List Nat
  | 0 => []
  | N + 1 => read_write_refs N ++ [N, N]

/-- The state of the FIFO policy after the references `read_write_refs m` on a table of
`np` pages and `n` frames (used by the proofs): the last `min m n` pages are resident
and dirty, page `q` in frame `q mod n`, the hand is at `m mod n`. -/
def seq_state_ok (np n m : Nat) (s : State) : Prop :=
  s.npages = np ∧ s.nframes = n ∧
  (∀ q, s.page_bits q = if m - n ≤ q ∧ q < m then (PROT_READ ||| PROT_WRITE) else 0) ∧
  (∀ q, s.page_mapping q = if m - n ≤ q ∧ q < m then q % n else 0) ∧
  s.current_frames = min m n ∧
  s.fifo_index = ((m % n : Nat) : Int) ∧
  s.page_faults = m ∧ s.disk_reads = m ∧ s.disk_writes = m - n

/-- The states of a run of a workload: those reached from the initial state of a table
with at least one frame by page faults, handled by the handler of policy `pol`, and by
stores of the workload into writable pages. -/
def ReachableExec (pol : Policy) (s : State) : Prop :=
  ∃ (npages nframes : Nat) (physmem disk : Nat → Nat) (draws : List Nat) (evs : List Event),
    1 ≤ nframes ∧ exec pol (init npages nframes physmem disk draws) evs = some s

end VirtMem

namespace VirtMem

/-! ## Elementary facts -/

theorem prot_rw : (PROT_READ ||| PROT_WRITE) = 3 := by decide

theorem random_pick_some (s : State) :
    ∀ (ds : List Nat) (v ef eb : Nat) (rest : List Nat),
      random_pick s ds = some (v, ef, eb, rest) →
      v < s.npages ∧ ef = s.page_mapping v ∧ eb = s.page_bits v ∧ s.page_bits v ≠ 0 := by
  intro ds
  induction ds with
  | nil => intro v ef eb rest h; simp [random_pick] at h
  | cons d ds ih =>
    intro v ef eb rest h
    unfold random_pick at h
    by_cases hn : s.npages = 0
    · simp [hn] at h
    · have hlt : d % s.npages < s.npages := Nat.mod_lt _ (Nat.pos_of_ne_zero hn)
      simp only [hn, if_false, page_table_get_entry, hlt, if_true] at h
      by_cases hb : s.page_bits (d % s.npages) = 0
      · simp only [hb, if_true] at h
        exact ih v ef eb rest h
      · simp only [hb, if_false, Option.some.injEq, Prod.mk.injEq] at h
        obtain ⟨h1, h2, h3, _⟩ := h
        subst h1
        exact ⟨hlt, h2.symm, h3.symm, hb⟩

theorem frame_scan_some (s : State) :
    ∀ (left e v : Nat), frame_scan s left e = some v →
      e ≤ v ∧ v < e + left ∧ (s.page_mapping v : Int) = s.fifo_index ∧
      ∀ q, e ≤ q → q < v → (s.page_mapping q : Int) ≠ s.fifo_index := by
  intro left
  induction left with
  | zero => intro e v h; simp [frame_scan] at h
  | succ left ih =>
    intro e v h
    unfold frame_scan at h
    by_cases hm : (s.page_mapping e : Int) = s.fifo_index
    · simp only [hm, ne_eq, not_true_eq_false, if_false, Option.some.injEq] at h
      subst h
      exact ⟨le_refl _, by omega, hm, fun q h1 h2 => by omega⟩
    · simp only [ne_eq, hm, not_false_eq_true, if_true] at h
      obtain ⟨h1, h2, h3, h4⟩ := ih (e + 1) v h
      refine ⟨by omega, by omega, h3, ?_⟩
      intro q hq1 hq2
      by_cases hqe : q = e
      · subst hqe; exact hm
      · exact h4 q (by omega) hq2

theorem frame_scan_total (s : State) :
    ∀ (left e q : Nat), e ≤ q → q < e + left → (s.page_mapping q : Int) = s.fifo_index →
      ∃ v, frame_scan s left e = some v := by
  intro left
  induction left with
  | zero => intro e q h1 h2; omega
  | succ left ih =>
    intro e q h1 h2 hq
    unfold frame_scan
    by_cases hm : (s.page_mapping e : Int) = s.fifo_index
    · exact ⟨e, by simp [hm]⟩
    · have hne : q ≠ e := fun h => hm (h ▸ hq)
      simp only [ne_eq, hm, not_false_eq_true, if_true]
      exact ih (e + 1) q (by omega) (by omega) hq

theorem c_mod_succ_range (n : Nat) (fi r : Int) (h : c_mod (fi + 1) n = some r)
    (hr : hand_in_range n fi) : hand_in_range n r := by
  unfold c_mod at h
  obtain ⟨h0, h1⟩ := hr
  by_cases hn : (n : Int) = 0
  · simp [hn] at h
  · simp only [hn, if_false, Option.some.injEq] at h
    have hpos : (0 : Int) < n := by omega
    rw [Int.tmod_eq_emod (by omega) (by omega)] at h
    subst h
    exact ⟨Int.emod_nonneg _ hn, Int.emod_lt_of_pos _ hpos⟩

theorem c_mod_succ_total (n : Nat) (fi : Int) (hn : 0 < n) :
    ∃ r, c_mod (fi + 1) n = some r := by
  unfold c_mod
  have : (n : Int) ≠ 0 := by omega
  exact ⟨Int.tmod (fi + 1) n, by simp [this]⟩

theorem fifo_pick_valid_some (s : State) :
    ∀ (left e : Nat) (fi : Int) (v ef eb : Nat) (fi1 : Int),
      fifo_pick_valid s left e fi = some (v, ef, eb, fi1) →
      v < s.npages ∧ ef = s.page_mapping v ∧ eb = s.page_bits v ∧ s.page_bits v ≠ 0 ∧
      (hand_in_range s.nframes fi → hand_in_range s.nframes fi1) := by
  intro left
  induction left with
  | zero => intro e fi v ef eb fi1 h; simp [fifo_pick_valid] at h
  | succ left ih =>
    intro e fi v ef eb fi1 h
    unfold fifo_pick_valid at h
    by_cases he : e < s.npages
    swap
    · simp [page_table_get_entry, he] at h
    simp only [page_table_get_entry, he, if_true] at h
    by_cases hb : s.page_bits e = 0
    · simp only [hb, if_true] at h
      rcases hc : c_mod (fi + 1) s.nframes with _ | r
      · simp [hc] at h
      · simp only [hc] at h
        obtain ⟨h1, h2, h3, h4, h5⟩ := ih _ _ _ _ _ _ h
        exact ⟨h1, h2, h3, h4, fun hr => h5 (c_mod_succ_range _ _ _ hc hr)⟩
    · simp only [hb, if_false, Option.some.injEq, Prod.mk.injEq] at h
      obtain ⟨h1, h2, h3, h4⟩ := h
      subst h1 h4
      exact ⟨he, h2.symm, h3.symm, hb, fun hr => hr⟩

theorem fifo_pick_valid_total (s : State) (hn : 0 < s.nframes) :
    ∀ (d left e : Nat) (fi : Int), d < left → e < s.npages →
      s.page_bits ((e + d) % s.npages) ≠ 0 →
      ∃ r, fifo_pick_valid s left e fi = some r := by
  intro d
  induction d with
  | zero =>
    intro left e fi hd he hb
    obtain ⟨l, rfl⟩ : ∃ l, left = l + 1 := ⟨left - 1, by omega⟩
    rw [Nat.add_zero, Nat.mod_eq_of_lt he] at hb
    unfold fifo_pick_valid
    simp [page_table_get_entry, he, hb]
  | succ d ih =>
    intro left e fi hd he hb
    obtain ⟨l, rfl⟩ : ∃ l, left = l + 1 := ⟨left - 1, by omega⟩
    unfold fifo_pick_valid
    simp only [page_table_get_entry, he, if_true]
    by_cases hb0 : s.page_bits e = 0
    · simp only [hb0, if_true]
      obtain ⟨r, hr⟩ := c_mod_succ_total s.nframes fi hn
      simp only [hr]
      have hlt : (e + 1) % s.npages < s.npages := Nat.mod_lt _ (by omega)
      apply ih l _ r (by omega) hlt
      have : ((e + 1) % s.npages + d) % s.npages = (e + (d + 1)) % s.npages := by
        rw [Nat.add_mod, Nat.mod_mod, ← Nat.add_mod]
        congr 1
        omega
      rw [this]
      exact hb
    · exact ⟨(e, s.page_mapping e, s.page_bits e, fi), by simp [hb0]⟩

theorem tmod_small (a : Int) (n : Nat) (h0 : 0 ≤ a) (h1 : a < n) : Int.tmod a n = a := by
  rw [Int.tmod_eq_emod h0 (by omega)]
  exact Int.emod_eq_of_lt h0 h1

theorem bififo_advance_two (n : Nat) (fi : Int) (dir : Bool) (hn : 2 ≤ n)
    (hok : bififo_ok n fi dir) :
    bififo_advance n fi dir =
      some (if dir then fi + 1 else fi - 1,
            if ((if dir then fi + 1 else fi - 1) = 0 ∨
                (if dir then fi + 1 else fi - 1) = (n : Int) - 1) then !dir else dir) ∧
    bififo_ok n (if dir then fi + 1 else fi - 1)
      (if ((if dir then fi + 1 else fi - 1) = 0 ∨
           (if dir then fi + 1 else fi - 1) = (n : Int) - 1) then !dir else dir) := by
  obtain ⟨h0, h1, h2⟩ := hok
  obtain ⟨h3, h4⟩ := h2 hn
  have hnz : (n : Int) ≠ 0 := by omega
  cases dir with
  | true =>
    have hlt : fi + 1 < n := by
      by_contra hc
      have : fi = (n : Int) - 1 := by omega
      exact absurd (h4 this) (by decide)
    have ht := tmod_small (fi + 1) n (by omega) hlt
    refine ⟨?_, ?_⟩
    · simp only [bififo_advance, c_mod, hnz, if_true, if_false, ht]
      by_cases hc : fi + 1 = 0 ∨ fi + 1 = (n : Int) - 1
      · simp only [if_pos hc]
      · simp only [if_neg hc]
    · simp only [if_true]
      by_cases hc : fi + 1 = 0 ∨ fi + 1 = (n : Int) - 1
      · simp only [hc, if_true]
        refine ⟨by omega, hlt, fun _ => ⟨fun h => by omega, fun _ => by decide⟩⟩
      · simp only [hc, if_false]
        refine ⟨by omega, hlt, fun _ => ⟨fun h => by omega, fun h => absurd (Or.inr h) hc⟩⟩
  | false =>
    have hge : 0 ≤ fi - 1 := by
      by_contra hc
      have : fi = 0 := by omega
      exact absurd (h3 this) (by decide)
    have ht := tmod_small (fi - 1) n hge (by omega)
    refine ⟨?_, ?_⟩
    · simp only [bififo_advance, c_mod, hnz, if_false, ht, Bool.false_eq_true]
      by_cases hc : fi - 1 = 0 ∨ fi - 1 = (n : Int) - 1
      · simp only [if_pos hc]
      · simp only [if_neg hc]
    · simp only [Bool.false_eq_true, if_false]
      by_cases hc : fi - 1 = 0 ∨ fi - 1 = (n : Int) - 1
      · simp only [hc, if_true]
        refine ⟨hge, by omega, fun _ => ⟨fun _ => by decide, fun h => by omega⟩⟩
      · simp only [hc, if_false]
        refine ⟨hge, by omega, fun _ => ⟨fun h => absurd (Or.inl h) hc, fun _ => rfl⟩⟩

theorem bififo_advance_one (fi : Int) (dir : Bool) :
    bififo_advance 1 fi dir = some (0, !dir) := by
  cases dir <;> simp [bififo_advance, c_mod, Int.tmod_one]

theorem bififo_advance_ok (n : Nat) (fi : Int) (dir : Bool) (hn : 0 < n)
    (hok : bififo_ok n fi dir) :
    ∃ fi1 d1, bififo_advance n fi dir = some (fi1, d1) ∧ bififo_ok n fi1 d1 := by
  by_cases h2 : 2 ≤ n
  · obtain ⟨h, hk⟩ := bififo_advance_two n fi dir h2 hok
    exact ⟨_, _, h, hk⟩
  · have h1 : n = 1 := by omega
    subst h1
    exact ⟨0, !dir, bififo_advance_one fi dir, by simp [bififo_ok]⟩

theorem custom_pick_valid_some (s : State) :
    ∀ (left e : Nat) (fi : Int) (dir : Bool) (v ef eb : Nat) (fi1 : Int) (d1 : Bool),
      custom_pick_valid s left e fi dir = some (v, ef, eb, fi1, d1) →
      v < s.npages ∧ ef = s.page_mapping v ∧ eb = s.page_bits v ∧ s.page_bits v ≠ 0 := by
  intro left
  induction left with
  | zero => intro e fi dir v ef eb fi1 d1 h; simp [custom_pick_valid] at h
  | succ left ih =>
    intro e fi dir v ef eb fi1 d1 h
    unfold custom_pick_valid at h
    by_cases he : e < s.npages
    swap
    · simp [page_table_get_entry, he] at h
    simp only [page_table_get_entry, he, if_true] at h
    by_cases hb : s.page_bits e = 0
    · simp only [hb, if_true] at h
      rcases hc : bififo_advance s.nframes fi dir with _ | ⟨r, d⟩
      · simp [hc] at h
      · simp only [hc] at h
        exact ih _ _ _ _ _ _ _ _ h
    · simp only [hb, if_false, Option.some.injEq, Prod.mk.injEq] at h
      obtain ⟨h1, h2, h3, h4, h5⟩ := h
      subst h1 h4 h5
      exact ⟨he, h2.symm, h3.symm, hb⟩

theorem custom_pick_valid_ok (s : State) (hn : 0 < s.nframes) :
    ∀ (left e : Nat) (fi : Int) (dir : Bool) (v ef eb : Nat) (fi1 : Int) (d1 : Bool),
      custom_pick_valid s left e fi dir = some (v, ef, eb, fi1, d1) →
      bififo_ok s.nframes fi dir → bififo_ok s.nframes fi1 d1 := by
  intro left
  induction left with
  | zero => intro e fi dir v ef eb fi1 d1 h; simp [custom_pick_valid] at h
  | succ left ih =>
    intro e fi dir v ef eb fi1 d1 h hr
    unfold custom_pick_valid at h
    by_cases he : e < s.npages
    swap
    · simp [page_table_get_entry, he] at h
    simp only [page_table_get_entry, he, if_true] at h
    by_cases hb : s.page_bits e = 0
    · simp only [hb, if_true] at h
      obtain ⟨r1, d2, hadv, hk⟩ := bififo_advance_ok _ _ _ hn hr
      simp only [hadv] at h
      exact ih _ _ _ _ _ _ _ _ h hk
    · simp only [hb, if_false, Option.some.injEq, Prod.mk.injEq] at h
      obtain ⟨h1, h2, h3, h4, h5⟩ := h
      subst h1 h4 h5
      exact hr

theorem custom_pick_valid_total (s : State) (hn : 0 < s.nframes) :
    ∀ (d left e : Nat) (fi : Int) (dir : Bool), d < left → e < s.npages →
      s.page_bits ((e + d) % s.npages) ≠ 0 → bififo_ok s.nframes fi dir →
      ∃ r, custom_pick_valid s left e fi dir = some r := by
  intro d
  induction d with
  | zero =>
    intro left e fi dir hd he hb _
    obtain ⟨l, rfl⟩ : ∃ l, left = l + 1 := ⟨left - 1, by omega⟩
    rw [Nat.add_zero, Nat.mod_eq_of_lt he] at hb
    unfold custom_pick_valid
    simp [page_table_get_entry, he, hb]
  | succ d ih =>
    intro left e fi dir hd he hb hok
    obtain ⟨l, rfl⟩ : ∃ l, left = l + 1 := ⟨left - 1, by omega⟩
    unfold custom_pick_valid
    simp only [page_table_get_entry, he, if_true]
    by_cases hb0 : s.page_bits e = 0
    · simp only [hb0, if_true]
      obtain ⟨r, d1, hr, hk⟩ := bififo_advance_ok s.nframes fi dir hn hok
      simp only [hr]
      have hlt : (e + 1) % s.npages < s.npages := Nat.mod_lt _ (by omega)
      apply ih l _ r d1 (by omega) hlt _ hk
      have : ((e + 1) % s.npages + d) % s.npages = (e + (d + 1)) % s.npages := by
        rw [Nat.add_mod, Nat.mod_mod, ← Nat.add_mod]
        congr 1
        omega
      rw [this]
      exact hb
    · exact ⟨(e, s.page_mapping e, s.page_bits e, fi, dir), by simp [hb0]⟩

theorem frame_scan_congr (s t : State) (hm : s.page_mapping = t.page_mapping)
    (hf : s.fifo_index = t.fifo_index) :
    ∀ (left e : Nat), frame_scan s left e = frame_scan t left e := by
  intro left
  induction left with
  | zero => intro e; rfl
  | succ left ih => intro e; simp only [frame_scan, hm, hf, ih]

theorem fifo_pick_valid_congr (s t : State) (hp : s.npages = t.npages)
    (hn : s.nframes = t.nframes) (hm : s.page_mapping = t.page_mapping)
    (hb : s.page_bits = t.page_bits) :
    ∀ (left e : Nat) (fi : Int), fifo_pick_valid s left e fi = fifo_pick_valid t left e fi := by
  intro left
  induction left with
  | zero => intro e fi; rfl
  | succ left ih =>
    intro e fi
    simp only [fifo_pick_valid, page_table_get_entry, hp, hn, hm, hb, ih]

theorem custom_pick_valid_congr (s t : State) (hp : s.npages = t.npages)
    (hn : s.nframes = t.nframes) (hm : s.page_mapping = t.page_mapping)
    (hb : s.page_bits = t.page_bits) :
    ∀ (left e : Nat) (fi : Int) (dir : Bool),
      custom_pick_valid s left e fi dir = custom_pick_valid t left e fi dir := by
  intro left
  induction left with
  | zero => intro e fi dir; rfl
  | succ left ih =>
    intro e fi dir
    simp only [custom_pick_valid, page_table_get_entry, hp, hn, hm, hb, ih]

theorem random_pick_congr (s t : State) (hp : s.npages = t.npages)
    (hm : s.page_mapping = t.page_mapping) (hb : s.page_bits = t.page_bits) :
    ∀ (ds : List Nat), random_pick s ds = random_pick t ds := by
  intro ds
  induction ds with
  | nil => rfl
  | cons d ds ih => simp only [random_pick, page_table_get_entry, hp, hm, hb, ih]

theorem frame_scan_page_faults (s : State) (k left e : Nat) :
    frame_scan { s with page_faults := k } left e = frame_scan s left e :=
  frame_scan_congr { s with page_faults := k } s rfl rfl left e

theorem fifo_pick_valid_page_faults (s : State) (k left e : Nat) (fi : Int) :
    fifo_pick_valid { s with page_faults := k } left e fi = fifo_pick_valid s left e fi :=
  fifo_pick_valid_congr { s with page_faults := k } s rfl rfl rfl rfl left e fi

theorem custom_pick_valid_page_faults (s : State) (k left e : Nat) (fi : Int) (dir : Bool) :
    custom_pick_valid { s with page_faults := k } left e fi dir =
      custom_pick_valid s left e fi dir :=
  custom_pick_valid_congr { s with page_faults := k } s rfl rfl rfl rfl left e fi dir

theorem random_pick_page_faults (s : State) (k : Nat) (ds : List Nat) :
    random_pick { s with page_faults := k } ds = random_pick s ds :=
  random_pick_congr { s with page_faults := k } s rfl rfl rfl ds

theorem random_handler_cases (s : State) (page : Nat) (s1 : State)
    (h : random_handler s page = some s1) :
    page < s.npages ∧
    ((s.page_bits page = 0 ∧ s.current_frames = s.nframes ∧
        ∃ v rest, v < s.npages ∧ s.page_bits v ≠ 0 ∧ s.page_mapping v < s.nframes ∧
          s1 = evict_result s page v s.fifo_index s.bififo_direction rest) ∨
     (s.page_bits page = 0 ∧ s.current_frames < s.nframes ∧
        s1 = fill_result s page s.fifo_index) ∨
     (s.page_bits page = PROT_READ ∧ s1 = upgrade_result s page) ∨
     (s.page_bits page ≠ 0 ∧ s.page_bits page ≠ PROT_READ ∧ s1 = s)) := by
  unfold random_handler at h
  by_cases hp : page < s.npages
  swap
  · simp [page_table_get_entry, hp] at h
  refine ⟨hp, ?_⟩
  simp only [page_table_get_entry, hp, if_true, Option.bind_eq_bind, Option.some_bind] at h
  by_cases hb : s.page_bits page = 0
  · simp only [hb, if_true] at h
    by_cases hf : s.current_frames = s.nframes
    · left
      simp only [hf, if_true] at h
      refine ⟨hb, hf, ?_⟩
      generalize hpick : random_pick _ s.rand = r at h
      rcases r with _ | ⟨v, ef, eb, rest⟩
      · simp at h
      · obtain ⟨hv, hef, heb, hres⟩ := random_pick_some _ _ _ _ _ _ hpick
        simp only at hv hef heb hres
        subst hef heb
        refine ⟨v, rest, hv, hres, ?_⟩
        by_cases hfr : s.page_mapping v < s.nframes
        · refine ⟨hfr, ?_⟩
          by_cases hd : s.page_bits v = (PROT_READ ||| PROT_WRITE)
          · simp [hd, disk_write, page_table_set_entry, disk_read, hv, hp, hfr] at h
            subst h
            simp [evict_result, disk_after_evict, hd, hf]
          · simp [hd, disk_write, page_table_set_entry, disk_read, hv, hp, hfr] at h
            subst h
            simp [evict_result, disk_after_evict, hd, hf]
        · exfalso
          by_cases hd : s.page_bits v = (PROT_READ ||| PROT_WRITE)
          · simp [hd, disk_write, page_table_set_entry, disk_read, hv, hp, hfr] at h
          · simp [hd, disk_write, page_table_set_entry, disk_read, hv, hp, hfr] at h
    · right; left
      simp only [hf, if_false] at h
      by_cases hfr : s.current_frames < s.nframes
      · simp [page_table_set_entry, disk_read, hp, hfr] at h
        subst h
        exact ⟨hb, hfr, by simp [fill_result]⟩
      · simp [page_table_set_entry, disk_read, hp, hfr] at h
  · right; right
    simp only [hb, if_false] at h
    by_cases hr : s.page_bits page = PROT_READ
    · left
      simp [hr, page_table_set_entry, hp] at h
      subst h
      exact ⟨hr, by simp [upgrade_result]⟩
    · right
      simp [hr] at h
      exact ⟨hb, hr, h.symm⟩

theorem fifo_handler_cases (s : State) (page : Nat) (s1 : State)
    (h : fifo_handler s page = some s1) :
    page < s.npages ∧
    ((s.page_bits page = 0 ∧ s.current_frames = s.nframes ∧
        ∃ e v fi1 fi2, frame_scan s s.npages 0 = some e ∧
          fifo_pick_valid s s.npages e s.fifo_index = some (v, s.page_mapping v, s.page_bits v, fi1) ∧
          c_mod (fi1 + 1) s.nframes = some fi2 ∧
          v < s.npages ∧ s.page_bits v ≠ 0 ∧ s.page_mapping v < s.nframes ∧
          s1 = evict_result s page v fi2 s.bififo_direction s.rand) ∨
     (s.page_bits page = 0 ∧ s.current_frames < s.nframes ∧
        ∃ fi1, c_mod (s.fifo_index + 1) s.nframes = some fi1 ∧ s1 = fill_result s page fi1) ∨
     (s.page_bits page = PROT_READ ∧ s1 = upgrade_result s page) ∨
     (s.page_bits page ≠ 0 ∧ s.page_bits page ≠ PROT_READ ∧ s1 = s)) := by
  unfold fifo_handler at h
  by_cases hp : page < s.npages
  swap
  · simp [page_table_get_entry, hp] at h
  refine ⟨hp, ?_⟩
  simp only [page_table_get_entry, hp, if_true, Option.bind_eq_bind, Option.some_bind] at h
  by_cases hb : s.page_bits page = 0
  · simp only [hb, if_true] at h
    by_cases hf : s.current_frames = s.nframes
    · left
      rw [if_pos hf] at h
      refine ⟨hb, hf, ?_⟩
      rw [frame_scan_page_faults] at h
      rcases hscan : frame_scan s s.npages 0 with _ | e
      · simp [hscan] at h
      simp only [hscan, Option.some_bind] at h
      rw [fifo_pick_valid_page_faults] at h
      rcases hpick : fifo_pick_valid s s.npages e s.fifo_index with _ | ⟨v, ef, eb, fi1⟩
      · simp [hpick] at h
      simp only [hpick, Option.some_bind] at h
      obtain ⟨hv, hef, heb, hres, _⟩ := fifo_pick_valid_some _ _ _ _ _ _ _ _ hpick
      subst hef heb
      rcases hc : c_mod (fi1 + 1) s.nframes with _ | fi2
      · exfalso
        by_cases hd : s.page_bits v = (PROT_READ ||| PROT_WRITE)
        · by_cases hfr : s.page_mapping v < s.nframes <;>
            simp [hd, disk_write, page_table_set_entry, disk_read, hv, hp, hfr, hc] at h
        · simp [hd, disk_write, page_table_set_entry, disk_read, hv, hp, hc] at h
      refine ⟨e, v, fi1, fi2, rfl, hpick, hc, hv, hres, ?_⟩
      by_cases hfr : s.page_mapping v < s.nframes
      · refine ⟨hfr, ?_⟩
        by_cases hd : s.page_bits v = (PROT_READ ||| PROT_WRITE)
        · simp [hd, disk_write, page_table_set_entry, disk_read, hv, hp, hfr, hc] at h
          subst h
          simp [evict_result, disk_after_evict, hd, hf]
        · simp [hd, disk_write, page_table_set_entry, disk_read, hv, hp, hfr, hc] at h
          subst h
          simp [evict_result, disk_after_evict, hd, hf]
      · exfalso
        by_cases hd : s.page_bits v = (PROT_READ ||| PROT_WRITE)
        · simp [hd, disk_write, page_table_set_entry, disk_read, hv, hp, hfr, hc] at h
        · simp [hd, disk_write, page_table_set_entry, disk_read, hv, hp, hfr, hc] at h
    · right; left
      simp only [hf, if_false] at h
      by_cases hfr : s.current_frames < s.nframes
      · rcases hc : c_mod (s.fifo_index + 1) s.nframes with _ | fi1
        · simp [page_table_set_entry, disk_read, hp, hfr, hc] at h
        · simp [page_table_set_entry, disk_read, hp, hfr, hc] at h
          subst h
          exact ⟨hb, hfr, fi1, rfl, by simp [fill_result]⟩
      · simp [page_table_set_entry, disk_read, hp, hfr] at h
  · right; right
    simp only [hb, if_false] at h
    by_cases hr : s.page_bits page = PROT_READ
    · left
      simp [hr, page_table_set_entry, hp] at h
      subst h
      exact ⟨hr, by simp [upgrade_result]⟩
    · right
      simp [hr] at h
      exact ⟨hb, hr, h.symm⟩

theorem custom_handler_cases (s : State) (page : Nat) (s1 : State)
    (h : custom_handler s page = some s1) :
    page < s.npages ∧
    ((s.page_bits page = 0 ∧ s.current_frames = s.nframes ∧
        ∃ e v fi1 d1 fi2 d2, frame_scan s s.npages 0 = some e ∧
          custom_pick_valid s s.npages e s.fifo_index s.bififo_direction =
            some (v, s.page_mapping v, s.page_bits v, fi1, d1) ∧
          bififo_advance s.nframes fi1 d1 = some (fi2, d2) ∧
          v < s.npages ∧ s.page_bits v ≠ 0 ∧ s.page_mapping v < s.nframes ∧
          s1 = evict_result s page v fi2 d2 s.rand) ∨
     (s.page_bits page = 0 ∧ s.current_frames < s.nframes ∧
        s1 = fill_result s page s.fifo_index) ∨
     (s.page_bits page = PROT_READ ∧ s1 = upgrade_result s page) ∨
     (s.page_bits page ≠ 0 ∧ s.page_bits page ≠ PROT_READ ∧ s1 = s)) := by
  unfold custom_handler at h
  by_cases hp : page < s.npages
  swap
  · simp [page_table_get_entry, hp] at h
  refine ⟨hp, ?_⟩
  simp only [page_table_get_entry, hp, if_true, Option.bind_eq_bind, Option.some_bind] at h
  by_cases hb : s.page_bits page = 0
  · simp only [hb, if_true] at h
    by_cases hf : s.current_frames = s.nframes
    · left
      rw [if_pos hf] at h
      refine ⟨hb, hf, ?_⟩
      rw [frame_scan_page_faults] at h
      rcases hscan : frame_scan s s.npages 0 with _ | e
      · simp [hscan] at h
      simp only [hscan, Option.some_bind] at h
      rw [custom_pick_valid_page_faults] at h
      rcases hpick : custom_pick_valid s s.npages e s.fifo_index s.bififo_direction with
        _ | ⟨v, ef, eb, fi1, d1⟩
      · simp [hpick] at h
      simp only [hpick, Option.some_bind] at h
      obtain ⟨hv, hef, heb, hres⟩ := custom_pick_valid_some _ _ _ _ _ _ _ _ _ _ hpick
      subst hef heb
      rcases hc : bififo_advance s.nframes fi1 d1 with _ | ⟨fi2, d2⟩
      · exfalso
        by_cases hd : s.page_bits v = (PROT_READ ||| PROT_WRITE)
        · by_cases hfr : s.page_mapping v < s.nframes <;>
            simp [hd, disk_write, page_table_set_entry, disk_read, hv, hp, hfr, hc] at h
        · simp [hd, disk_write, page_table_set_entry, disk_read, hv, hp, hc] at h
      refine ⟨e, v, fi1, d1, fi2, d2, rfl, hpick, hc, hv, hres, ?_⟩
      by_cases hfr : s.page_mapping v < s.nframes
      · refine ⟨hfr, ?_⟩
        by_cases hd : s.page_bits v = (PROT_READ ||| PROT_WRITE)
        · simp [hd, disk_write, page_table_set_entry, disk_read, hv, hp, hfr, hc] at h
          subst h
          simp [evict_result, disk_after_evict, hd, hf]
        · simp [hd, disk_write, page_table_set_entry, disk_read, hv, hp, hfr, hc] at h
          subst h
          simp [evict_result, disk_after_evict, hd, hf]
      · exfalso
        by_cases hd : s.page_bits v = (PROT_READ ||| PROT_WRITE)
        · simp [hd, disk_write, page_table_set_entry, disk_read, hv, hp, hfr, hc] at h
        · simp [hd, disk_write, page_table_set_entry, disk_read, hv, hp, hfr, hc] at h
    · right; left
      simp only [hf, if_false] at h
      by_cases hfr : s.current_frames < s.nframes
      · simp [page_table_set_entry, disk_read, hp, hfr] at h
        subst h
        exact ⟨hb, hfr, by simp [fill_result]⟩
      · simp [page_table_set_entry, disk_read, hp, hfr] at h
  · right; right
    simp only [hb, if_false] at h
    by_cases hr : s.page_bits page = PROT_READ
    · left
      simp [hr, page_table_set_entry, hp] at h
      subst h
      exact ⟨hr, by simp [upgrade_result]⟩
    · right
      simp [hr] at h
      exact ⟨hb, hr, h.symm⟩

theorem handler_cases (pol : Policy) (s : State) (page : Nat) (s1 : State)
    (h : handler pol s page = some s1) :
    page < s.npages ∧
    ((s.page_bits page = 0 ∧ s.current_frames = s.nframes ∧
        ∃ v fi dir rest, v < s.npages ∧ s.page_bits v ≠ 0 ∧ s.page_mapping v < s.nframes ∧
          s1 = evict_result s page v fi dir rest) ∨
     (s.page_bits page = 0 ∧ s.current_frames < s.nframes ∧
        ∃ fi, s1 = fill_result s page fi) ∨
     (s.page_bits page = PROT_READ ∧ s1 = upgrade_result s page) ∨
     (s.page_bits page ≠ 0 ∧ s.page_bits page ≠ PROT_READ ∧ s1 = s)) := by
  cases pol with
  | rand =>
    obtain ⟨hp, hc⟩ := random_handler_cases s page s1 h
    refine ⟨hp, ?_⟩
    rcases hc with ⟨h1, h2, v, rest, h3, h4, h5, h6⟩ | ⟨h1, h2, h3⟩ | hc | hc
    · exact Or.inl ⟨h1, h2, v, _, _, rest, h3, h4, h5, h6⟩
    · exact Or.inr (Or.inl ⟨h1, h2, _, h3⟩)
    · exact Or.inr (Or.inr (Or.inl hc))
    · exact Or.inr (Or.inr (Or.inr hc))
  | fifo =>
    obtain ⟨hp, hc⟩ := fifo_handler_cases s page s1 h
    refine ⟨hp, ?_⟩
    rcases hc with ⟨h1, h2, e, v, fi1, fi2, _, _, _, h3, h4, h5, h6⟩ | ⟨h1, h2, fi, _, h3⟩ | hc | hc
    · exact Or.inl ⟨h1, h2, v, _, _, _, h3, h4, h5, h6⟩
    · exact Or.inr (Or.inl ⟨h1, h2, _, h3⟩)
    · exact Or.inr (Or.inr (Or.inl hc))
    · exact Or.inr (Or.inr (Or.inr hc))
  | custom =>
    obtain ⟨hp, hc⟩ := custom_handler_cases s page s1 h
    refine ⟨hp, ?_⟩
    rcases hc with ⟨h1, h2, e, v, fi1, d1, fi2, d2, _, _, _, h3, h4, h5, h6⟩ | ⟨h1, h2, h3⟩ | hc | hc
    · exact Or.inl ⟨h1, h2, v, _, _, _, h3, h4, h5, h6⟩
    · exact Or.inr (Or.inl ⟨h1, h2, _, h3⟩)
    · exact Or.inr (Or.inr (Or.inl hc))
    · exact Or.inr (Or.inr (Or.inr hc))

/-! ## The invariant is kept by each branch -/

theorem filter_update_insert (b : Nat → Nat) (N page x : Nat) (hp : page < N) (hx : x ≠ 0) :
    (Finset.range N).filter (fun q => Function.update b page x q ≠ 0) =
      insert page ((Finset.range N).filter (fun q => b q ≠ 0)) := by
  ext q
  by_cases hq : q = page
  · subst hq; simp [hp, hx]
  · simp [Function.update_noteq hq, hq]

theorem filter_update_erase (b : Nat → Nat) (N v : Nat) :
    (Finset.range N).filter (fun q => Function.update b v 0 q ≠ 0) =
      ((Finset.range N).filter (fun q => b q ≠ 0)).erase v := by
  ext q
  by_cases hq : q = v
  · subst hq; simp
  · simp [Function.update_noteq hq, hq]

theorem prot_read_ne_zero : PROT_READ ≠ 0 := by decide

theorem prot_rw_ne_zero : (PROT_READ ||| PROT_WRITE) ≠ 0 := by decide

theorem inv_init (npages nframes : Nat) (physmem disk : Nat → Nat) (draws : List Nat) :
    Inv (init npages nframes physmem disk draws) where
  cf_le := Nat.zero_le _
  count := by simp [resident_count, init]
  frame_lt := by intro q _ hb; simp [init] at hb
  inj := by intro q r _ _ hb; simp [init] at hb
  unmapped_zero := by intro q _; rfl
  bits_cases := by intro q; left; rfl
  faults := by simp [init]

theorem inv_fill (s : State) (page : Nat) (fi : Int) (hi : Inv s) (hp : page < s.npages)
    (hb : s.page_bits page = 0) (hf : s.current_frames < s.nframes) :
    Inv (fill_result s page fi) where
  cf_le := by simp only [fill_result]; omega
  count := by
    have hc := hi.count
    simp only [resident_count, fill_result] at hc ⊢
    rw [filter_update_insert _ _ _ _ hp prot_read_ne_zero, Finset.card_insert_of_not_mem, hc]
    simp [hb]
  frame_lt := by
    intro q hq hbq
    simp only [fill_result] at hq hbq ⊢
    by_cases hqp : q = page
    · subst hqp; simp
    · rw [Function.update_noteq hqp] at hbq ⊢
      have := hi.frame_lt q hq hbq
      omega
  inj := by
    intro q r hq hr hbq hbr hm
    simp only [fill_result] at hq hr hbq hbr hm
    by_cases hqp : q = page <;> by_cases hrp : r = page
    · rw [hqp, hrp]
    · subst hqp
      rw [Function.update_noteq hrp] at hbr
      rw [Function.update_same, Function.update_noteq hrp] at hm
      have := hi.frame_lt r hr hbr
      omega
    · subst hrp
      rw [Function.update_noteq hqp] at hbq
      rw [Function.update_same, Function.update_noteq hqp] at hm
      have := hi.frame_lt q hq hbq
      omega
    · rw [Function.update_noteq hqp] at hbq hm
      rw [Function.update_noteq hrp] at hbr hm
      exact hi.inj q r hq hr hbq hbr hm
  unmapped_zero := by
    intro q hbq
    simp only [fill_result] at hbq ⊢
    by_cases hqp : q = page
    · subst hqp; simp [prot_read_ne_zero] at hbq
    · rw [Function.update_noteq hqp] at hbq ⊢
      exact hi.unmapped_zero q hbq
  bits_cases := by
    intro q
    simp only [fill_result]
    by_cases hqp : q = page
    · subst hqp; simp
    · rw [Function.update_noteq hqp]; exact hi.bits_cases q
  faults := by
    have := hi.faults
    simp only [fill_result]
    omega

theorem inv_evict (s : State) (page v : Nat) (fi : Int) (dir : Bool) (rest : List Nat)
    (hi : Inv s) (hp : page < s.npages) (hb : s.page_bits page = 0)
    (hf : s.current_frames = s.nframes) (hv : v < s.npages) (hbv : s.page_bits v ≠ 0) :
    Inv (evict_result s page v fi dir rest) where
  cf_le := by simp only [evict_result]; exact hi.cf_le
  count := by
    have hc := hi.count
    have hvp : v ≠ page := fun h => hbv (h ▸ hb)
    simp only [resident_count, evict_result] at hc ⊢
    rw [filter_update_insert _ _ _ _ hp prot_read_ne_zero, filter_update_erase,
      Finset.card_insert_of_not_mem, Finset.card_erase_of_mem, hc]
    · have : 0 < ((Finset.range s.npages).filter (fun q => s.page_bits q ≠ 0)).card :=
        Finset.card_pos.mpr ⟨v, by simp [hv, hbv]⟩
      omega
    · simp [hv, hbv]
    · simp [hb]
  frame_lt := by
    intro q hq hbq
    simp only [evict_result] at hq hbq ⊢
    by_cases hqp : q = page
    · subst hqp
      rw [Function.update_same]
      exact hi.frame_lt v hv hbv
    · rw [Function.update_noteq hqp] at hbq ⊢
      by_cases hqv : q = v
      · subst hqv; simp at hbq
      · rw [Function.update_noteq hqv] at hbq ⊢
        exact hi.frame_lt q hq hbq
  inj := by
    intro q r hq hr hbq hbr hm
    simp only [evict_result] at hq hr hbq hbr hm
    have key : ∀ x, x < s.npages → x ≠ page →
        Function.update (Function.update s.page_bits v 0) page PROT_READ x ≠ 0 →
        x ≠ v ∧ s.page_bits x ≠ 0 ∧
        Function.update (Function.update s.page_mapping v 0) page (s.page_mapping v) x =
          s.page_mapping x := by
      intro x _ hxp hbx
      rw [Function.update_noteq hxp] at hbx
      have hxv : x ≠ v := by
        intro h; subst h; simp at hbx
      rw [Function.update_noteq hxv] at hbx
      exact ⟨hxv, hbx, by rw [Function.update_noteq hxp, Function.update_noteq hxv]⟩
    by_cases hqp : q = page <;> by_cases hrp : r = page
    · rw [hqp, hrp]
    · subst hqp
      obtain ⟨h1, h2, h3⟩ := key r hr hrp hbr
      rw [Function.update_same, h3] at hm
      exact absurd (hi.inj v r hv hr hbv h2 hm).symm h1
    · subst hrp
      obtain ⟨h1, h2, h3⟩ := key q hq hqp hbq
      rw [Function.update_same, h3] at hm
      exact absurd (hi.inj q v hq hv h2 hbv hm) h1
    · obtain ⟨_, h2, h3⟩ := key q hq hqp hbq
      obtain ⟨_, h5, h6⟩ := key r hr hrp hbr
      rw [h3, h6] at hm
      exact hi.inj q r hq hr h2 h5 hm
  unmapped_zero := by
    intro q hbq
    simp only [evict_result] at hbq ⊢
    by_cases hqp : q = page
    · subst hqp; simp [prot_read_ne_zero] at hbq
    · rw [Function.update_noteq hqp] at hbq ⊢
      by_cases hqv : q = v
      · subst hqv; simp
      · rw [Function.update_noteq hqv] at hbq ⊢
        exact hi.unmapped_zero q hbq
  bits_cases := by
    intro q
    simp only [evict_result]
    by_cases hqp : q = page
    · subst hqp; simp
    · rw [Function.update_noteq hqp]
      by_cases hqv : q = v
      · subst hqv; simp
      · rw [Function.update_noteq hqv]; exact hi.bits_cases q
  faults := by
    have := hi.faults
    simp only [evict_result]
    omega

theorem inv_upgrade (s : State) (page : Nat) (hi : Inv s) (hb : s.page_bits page = PROT_READ) :
    Inv (upgrade_result s page) := by
  have hset : (Finset.range s.npages).filter
      (fun q => Function.update s.page_bits page (PROT_READ ||| PROT_WRITE) q ≠ 0) =
      (Finset.range s.npages).filter (fun q => s.page_bits q ≠ 0) := by
    ext q
    by_cases hq : q = page
    · subst hq; simp [hb, prot_read_ne_zero, prot_rw_ne_zero]
    · simp [Function.update_noteq hq]
  have hbits : ∀ q, Function.update s.page_bits page (PROT_READ ||| PROT_WRITE) q ≠ 0 →
      s.page_bits q ≠ 0 := by
    intro q h
    by_cases hq : q = page
    · subst hq; rw [hb]; exact prot_read_ne_zero
    · rwa [Function.update_noteq hq] at h
  constructor
  · exact hi.cf_le
  · have hc := hi.count
    simp only [resident_count, upgrade_result] at hc ⊢
    rw [hset, hc]
  · intro q hq hbq
    simp only [upgrade_result, Function.update_eq_self] at hq hbq ⊢
    exact hi.frame_lt q hq (hbits q hbq)
  · intro q r hq hr hbq hbr hm
    simp only [upgrade_result, Function.update_eq_self] at hq hr hbq hbr hm
    exact hi.inj q r hq hr (hbits q hbq) (hbits r hbr) hm
  · intro q hbq
    simp only [upgrade_result, Function.update_eq_self] at hbq ⊢
    by_cases hqp : q = page
    · subst hqp; simp [prot_rw_ne_zero] at hbq
    · rw [Function.update_noteq hqp] at hbq
      exact hi.unmapped_zero q hbq
  · intro q
    simp only [upgrade_result]
    by_cases hqp : q = page
    · subst hqp; simp
    · rw [Function.update_noteq hqp]; exact hi.bits_cases q
  · exact hi.faults

theorem inv_handler (pol : Policy) (s : State) (page : Nat) (s1 : State) (hi : Inv s)
    (h : handler pol s page = some s1) : Inv s1 := by
  obtain ⟨hp, hc⟩ := handler_cases pol s page s1 h
  rcases hc with ⟨h1, h2, v, fi, dir, rest, h3, h4, _, h6⟩ | ⟨h1, h2, fi, h3⟩ | ⟨h1, h2⟩ |
    ⟨_, _, h3⟩
  · rw [h6]; exact inv_evict s page v fi dir rest hi hp h1 h2 h3 h4
  · rw [h3]; exact inv_fill s page fi hi hp h1 h2
  · rw [h2]; exact inv_upgrade s page hi h1
  · rw [h3]; exact hi

theorem inv_run (pol : Policy) :
    ∀ (ps : List Nat) (s s1 : State), Inv s → run pol s ps = some s1 → Inv s1 := by
  intro ps
  induction ps with
  | nil =>
    intro s s1 hi h
    simp only [run, Option.some.injEq] at h
    exact h ▸ hi
  | cons page rest ih =>
    intro s s1 hi h
    unfold run at h
    rcases hh : handler pol s page with _ | s2
    · simp [hh] at h
    · simp only [hh] at h
      exact ih s2 s1 (inv_handler pol s page s2 hi hh) h

/-! ## The hand stays a frame index -/

theorem handler_sizes (pol : Policy) (s : State) (page : Nat) (s1 : State)
    (h : handler pol s page = some s1) : s1.npages = s.npages ∧ s1.nframes = s.nframes := by
  obtain ⟨_, hc⟩ := handler_cases pol s page s1 h
  rcases hc with ⟨_, _, v, fi, dir, rest, _, _, _, h6⟩ | ⟨_, _, fi, h3⟩ | ⟨_, h2⟩ | ⟨_, _, h3⟩
  · rw [h6]; exact ⟨rfl, rfl⟩
  · rw [h3]; exact ⟨rfl, rfl⟩
  · rw [h2]; exact ⟨rfl, rfl⟩
  · rw [h3]; exact ⟨rfl, rfl⟩

theorem hand_ok_handler (pol : Policy) (s : State) (page : Nat) (s1 : State)
    (hn : 0 < s.nframes) (hk : hand_ok pol s) (h : handler pol s page = some s1) :
    hand_ok pol s1 := by
  cases pol with
  | rand =>
    obtain ⟨_, hc⟩ := random_handler_cases s page s1 h
    simp only [hand_ok] at hk ⊢
    rcases hc with ⟨_, _, v, rest, _, _, _, h6⟩ | ⟨_, _, h3⟩ | ⟨_, h2⟩ | ⟨_, _, h3⟩
    · rw [h6]; exact hk
    · rw [h3]; exact hk
    · rw [h2]; exact hk
    · rw [h3]; exact hk
  | fifo =>
    obtain ⟨_, hc⟩ := fifo_handler_cases s page s1 h
    simp only [hand_ok] at hk ⊢
    rcases hc with ⟨_, _, e, v, fi1, fi2, _, hpick, hc2, _, _, _, h6⟩ | ⟨_, _, fi, hc1, h3⟩ |
      ⟨_, h2⟩ | ⟨_, _, h3⟩
    · rw [h6]
      obtain ⟨_, _, _, _, hr⟩ := fifo_pick_valid_some _ _ _ _ _ _ _ _ hpick
      exact c_mod_succ_range _ _ _ hc2 (hr hk)
    · rw [h3]; exact c_mod_succ_range _ _ _ hc1 hk
    · rw [h2]; exact hk
    · rw [h3]; exact hk
  | custom =>
    obtain ⟨_, hc⟩ := custom_handler_cases s page s1 h
    simp only [hand_ok] at hk ⊢
    rcases hc with ⟨_, _, e, v, fi1, d1, fi2, d2, _, hpick, hadv, _, _, _, h6⟩ | ⟨_, _, h3⟩ |
      ⟨_, h2⟩ | ⟨_, _, h3⟩
    · rw [h6]
      have hk1 := custom_pick_valid_ok s hn _ _ _ _ _ _ _ _ _ hpick hk
      obtain ⟨r, d, hadv2, hk2⟩ := bififo_advance_ok _ _ _ hn hk1
      rw [hadv] at hadv2
      simp only [Option.some.injEq, Prod.mk.injEq] at hadv2
      simp only [evict_result]
      rw [hadv2.1, hadv2.2]
      exact hk2
    · rw [h3]; exact hk
    · rw [h2]; exact hk
    · rw [h3]; exact hk

theorem hand_ok_init (pol : Policy) (npages nframes : Nat) (physmem disk : Nat → Nat)
    (draws : List Nat) (hn : 0 < nframes) :
    hand_ok pol (init npages nframes physmem disk draws) := by
  cases pol with
  | rand => rfl
  | fifo => exact ⟨le_refl _, by simp [init, hn]⟩
  | custom =>
    refine ⟨le_refl _, by simp [init, hn], fun h2 => ⟨fun _ => rfl, fun h => ?_⟩⟩
    simp only [init] at h h2
    omega

theorem run_sizes (pol : Policy) :
    ∀ (ps : List Nat) (s s1 : State), run pol s ps = some s1 →
      s1.npages = s.npages ∧ s1.nframes = s.nframes := by
  intro ps
  induction ps with
  | nil =>
    intro s s1 h
    simp only [run, Option.some.injEq] at h
    subst h
    exact ⟨rfl, rfl⟩
  | cons page rest ih =>
    intro s s1 h
    unfold run at h
    rcases hh : handler pol s page with _ | s2
    · simp [hh] at h
    · simp only [hh] at h
      obtain ⟨h1, h2⟩ := handler_sizes pol s page s2 hh
      obtain ⟨h3, h4⟩ := ih s2 s1 h
      exact ⟨h3.trans h1, h4.trans h2⟩

theorem hand_ok_run (pol : Policy) :
    ∀ (ps : List Nat) (s s1 : State), 0 < s.nframes → hand_ok pol s →
      run pol s ps = some s1 → hand_ok pol s1 := by
  intro ps
  induction ps with
  | nil =>
    intro s s1 _ hk h
    simp only [run, Option.some.injEq] at h
    exact h ▸ hk
  | cons page rest ih =>
    intro s s1 hn hk h
    unfold run at h
    rcases hh : handler pol s page with _ | s2
    · simp [hh] at h
    · simp only [hh] at h
      have hn2 : 0 < s2.nframes := by rw [(handler_sizes pol s page s2 hh).2]; exact hn
      exact ih s2 s1 hn2 (hand_ok_handler pol s page s2 hn hk hh) h

/-! ## A full frame table holds a page in every frame -/

theorem exists_page_of_frame (s : State) (hi : Inv s) (hfull : s.current_frames = s.nframes)
    (f : Nat) (hf : f < s.nframes) :
    ∃ q, q < s.npages ∧ s.page_bits q ≠ 0 ∧ s.page_mapping q = f := by
  let R := (Finset.range s.npages).filter (fun q => s.page_bits q ≠ 0)
  have hinj : Set.InjOn s.page_mapping (R : Set Nat) := by
    intro q hq r hr hm
    simp only [R, Finset.coe_filter, Finset.mem_range, Set.mem_setOf_eq] at hq hr
    exact hi.inj q r hq.1 hr.1 hq.2 hr.2 hm
  have hcard : (R.image s.page_mapping).card = s.nframes := by
    rw [Finset.card_image_of_injOn hinj]
    have := hi.count
    simp only [resident_count] at this
    rw [← hfull, ← this]
  have hsub : R.image s.page_mapping ⊆ Finset.range s.nframes := by
    intro x hx
    simp only [R, Finset.mem_image, Finset.mem_filter, Finset.mem_range] at hx
    obtain ⟨q, ⟨hq, hb⟩, rfl⟩ := hx
    have := hi.frame_lt q hq hb
    simp only [Finset.mem_range]
    omega
  have heq : R.image s.page_mapping = Finset.range s.nframes :=
    Finset.eq_of_subset_of_card_le hsub (by rw [hcard, Finset.card_range])
  have hmem : f ∈ R.image s.page_mapping := by rw [heq]; exact Finset.mem_range.mpr hf
  simp only [R, Finset.mem_image, Finset.mem_filter, Finset.mem_range] at hmem
  obtain ⟨q, ⟨hq, hb⟩, hm⟩ := hmem
  exact ⟨q, hq, hb, hm⟩

theorem exists_cyclic_offset (N e r : Nat) (he : e < N) (hr : r < N) :
    ∃ d, d < N ∧ (e + d) % N = r := by
  by_cases h : e ≤ r
  · exact ⟨r - e, by omega, by rw [Nat.add_sub_cancel' h]; exact Nat.mod_eq_of_lt hr⟩
  · refine ⟨r + N - e, by omega, ?_⟩
    have : e + (r + N - e) = r + N := by omega
    rw [this, Nat.add_mod_right]
    exact Nat.mod_eq_of_lt hr

/-! ## `fifo_handler` and `custom_handler` return on every state of a run -/

theorem fifo_handler_total (s : State) (page : Nat) (hi : Inv s)
    (hk : hand_in_range s.nframes s.fifo_index) (hp : page < s.npages) :
    ∃ s1, fifo_handler s page = some s1 := by
  have hn : 0 < s.nframes := by
    obtain ⟨h0, h1⟩ := hk
    omega
  unfold fifo_handler
  simp only [page_table_get_entry, hp, if_true, Option.bind_eq_bind, Option.some_bind]
  by_cases hb : s.page_bits page = 0
  · simp only [hb, if_true]
    by_cases hf : s.current_frames = s.nframes
    · rw [if_pos hf]
      obtain ⟨q, hq, hbq, hmq⟩ :=
        exists_page_of_frame s hi hf s.fifo_index.toNat (by obtain ⟨h0, h1⟩ := hk; omega)
      have hmq2 : (s.page_mapping q : Int) = s.fifo_index := by
        obtain ⟨h0, h1⟩ := hk
        rw [hmq]; omega
      obtain ⟨e, hscan⟩ := frame_scan_total s s.npages 0 q (Nat.zero_le _) (by omega) hmq2
      obtain ⟨_, he, _, _⟩ := frame_scan_some s _ _ _ hscan
      obtain ⟨d, hd, hde⟩ := exists_cyclic_offset s.npages e q (by omega) hq
      obtain ⟨⟨v, ef, eb, fi1⟩, hpick⟩ :=
        fifo_pick_valid_total s hn d s.npages e s.fifo_index hd (by omega) (by rw [hde]; exact hbq)
      obtain ⟨hv, hef, heb, hres, _⟩ := fifo_pick_valid_some _ _ _ _ _ _ _ _ hpick
      subst hef heb
      obtain ⟨fi2, hc⟩ := c_mod_succ_total s.nframes fi1 hn
      have hfr : s.page_mapping v < s.nframes := hf ▸ hi.frame_lt v hv hres
      rw [frame_scan_page_faults, hscan]
      simp only [Option.some_bind]
      rw [fifo_pick_valid_page_faults, hpick]
      by_cases hd : s.page_bits v = (PROT_READ ||| PROT_WRITE)
      · simp [hd, disk_write, page_table_set_entry, disk_read, hv, hp, hfr, hc]
      · simp [hd, disk_write, page_table_set_entry, disk_read, hv, hp, hfr, hc]
    · have hfr : s.current_frames < s.nframes := lt_of_le_of_ne hi.cf_le hf
      obtain ⟨fi1, hc⟩ := c_mod_succ_total s.nframes s.fifo_index hn
      simp [hf, page_table_set_entry, disk_read, hp, hfr, hc]
  · simp only [hb, if_false]
    by_cases hr : s.page_bits page = PROT_READ
    · simp [hr, page_table_set_entry, hp]
    · simp [hr]

theorem custom_handler_total (s : State) (page : Nat) (hi : Inv s)
    (hk : bififo_ok s.nframes s.fifo_index s.bififo_direction) (hp : page < s.npages) :
    ∃ s1, custom_handler s page = some s1 := by
  have hn : 0 < s.nframes := by
    obtain ⟨h0, h1, _⟩ := hk
    omega
  unfold custom_handler
  simp only [page_table_get_entry, hp, if_true, Option.bind_eq_bind, Option.some_bind]
  by_cases hb : s.page_bits page = 0
  · simp only [hb, if_true]
    by_cases hf : s.current_frames = s.nframes
    · rw [if_pos hf]
      obtain ⟨q, hq, hbq, hmq⟩ :=
        exists_page_of_frame s hi hf s.fifo_index.toNat (by obtain ⟨h0, h1, _⟩ := hk; omega)
      have hmq2 : (s.page_mapping q : Int) = s.fifo_index := by
        obtain ⟨h0, h1, _⟩ := hk
        rw [hmq]; omega
      obtain ⟨e, hscan⟩ := frame_scan_total s s.npages 0 q (Nat.zero_le _) (by omega) hmq2
      obtain ⟨_, he, _, _⟩ := frame_scan_some s _ _ _ hscan
      obtain ⟨d, hd, hde⟩ := exists_cyclic_offset s.npages e q (by omega) hq
      obtain ⟨⟨v, ef, eb, fi1, d1⟩, hpick⟩ :=
        custom_pick_valid_total s hn d s.npages e s.fifo_index s.bififo_direction hd (by omega)
          (by rw [hde]; exact hbq) hk
      obtain ⟨hv, hef, heb, hres⟩ := custom_pick_valid_some _ _ _ _ _ _ _ _ _ _ hpick
      subst hef heb
      have hk1 := custom_pick_valid_ok s hn _ _ _ _ _ _ _ _ _ hpick hk
      obtain ⟨fi2, d2, hc, _⟩ := bififo_advance_ok _ _ _ hn hk1
      have hfr : s.page_mapping v < s.nframes := hf ▸ hi.frame_lt v hv hres
      rw [frame_scan_page_faults, hscan]
      simp only [Option.some_bind]
      rw [custom_pick_valid_page_faults, hpick]
      by_cases hd : s.page_bits v = (PROT_READ ||| PROT_WRITE)
      · simp [hd, disk_write, page_table_set_entry, disk_read, hv, hp, hfr, hc]
      · simp [hd, disk_write, page_table_set_entry, disk_read, hv, hp, hfr, hc]
    · have hfr : s.current_frames < s.nframes := lt_of_le_of_ne hi.cf_le hf
      simp [hf, page_table_set_entry, disk_read, hp, hfr]
  · simp only [hb, if_false]
    by_cases hr : s.page_bits page = PROT_READ
    · simp [hr, page_table_set_entry, hp]
    · simp [hr]

theorem random_handler_total (s : State) (page : Nat) (hi : Inv s) (hp : page < s.npages)
    (hhalt : ∃ r, random_pick s s.rand = some r) : ∃ s1, random_handler s page = some s1 := by
  unfold random_handler
  simp only [page_table_get_entry, hp, if_true, Option.bind_eq_bind, Option.some_bind]
  by_cases hb : s.page_bits page = 0
  · simp only [hb, if_true]
    by_cases hf : s.current_frames = s.nframes
    · rw [if_pos hf]
      obtain ⟨⟨v, ef, eb, rest⟩, hpick⟩ := hhalt
      obtain ⟨hv, hef, heb, hres⟩ := random_pick_some _ _ _ _ _ _ hpick
      subst hef heb
      have hfr : s.page_mapping v < s.nframes := hf ▸ hi.frame_lt v hv hres
      rw [random_pick_page_faults, hpick]
      by_cases hd : s.page_bits v = (PROT_READ ||| PROT_WRITE)
      · simp [hd, disk_write, page_table_set_entry, disk_read, hv, hp, hfr]
      · simp [hd, disk_write, page_table_set_entry, disk_read, hv, hp, hfr]
    · have hfr : s.current_frames < s.nframes := lt_of_le_of_ne hi.cf_le hf
      simp [hf, page_table_set_entry, disk_read, hp, hfr]
  · simp only [hb, if_false]
    by_cases hr : s.page_bits page = PROT_READ
    · simp [hr, page_table_set_entry, hp]
    · simp [hr]

theorem handler_fill_eq (pol : Policy) (s : State) (page : Nat) (hp : page < s.npages)
    (hb : s.page_bits page = 0) (hf : s.current_frames < s.nframes) :
    ∃ fi, handler pol s page = some (fill_result s page fi) := by
  have hne : s.current_frames ≠ s.nframes := Nat.ne_of_lt hf
  cases pol with
  | rand =>
    refine ⟨s.fifo_index, ?_⟩
    simp [handler, random_handler, page_table_get_entry, hp, hb, hne, page_table_set_entry,
      disk_read, hf, fill_result]
  | fifo =>
    obtain ⟨fi, hc⟩ := c_mod_succ_total s.nframes s.fifo_index (by omega)
    refine ⟨fi, ?_⟩
    simp [handler, fifo_handler, page_table_get_entry, hp, hb, hne, page_table_set_entry,
      disk_read, hf, fill_result, hc]
  | custom =>
    refine ⟨s.fifo_index, ?_⟩
    simp [handler, custom_handler, page_table_get_entry, hp, hb, hne, page_table_set_entry,
      disk_read, hf, fill_result]

theorem handler_upgrade_eq (pol : Policy) (s : State) (page : Nat) (hp : page < s.npages)
    (hb : s.page_bits page = PROT_READ) :
    handler pol s page = some (upgrade_result s page) := by
  have h0 : s.page_bits page ≠ 0 := by rw [hb]; exact prot_read_ne_zero
  cases pol with
  | rand =>
    simp [handler, random_handler, page_table_get_entry, hp, hb, prot_read_ne_zero,
      page_table_set_entry, upgrade_result]
  | fifo =>
    simp [handler, fifo_handler, page_table_get_entry, hp, hb, prot_read_ne_zero,
      page_table_set_entry, upgrade_result]
  | custom =>
    simp [handler, custom_handler, page_table_get_entry, hp, hb, prot_read_ne_zero,
      page_table_set_entry, upgrade_result]

theorem reachable_inv (pol : Policy) (s : State) (hr : Reachable pol s) :
    Inv s ∧ hand_ok pol s ∧ 1 ≤ s.nframes := by
  obtain ⟨npages, nframes, physmem, disk, draws, ps, hn, hrun⟩ := hr
  refine ⟨inv_run pol ps _ s (inv_init _ _ _ _ _) hrun, ?_, ?_⟩
  · exact hand_ok_run pol ps (init npages nframes physmem disk draws) s hn
      (hand_ok_init pol _ _ _ _ _ hn) hrun
  · rw [(run_sizes pol ps _ s hrun).2]; exact hn

theorem handler_total (pol : Policy) (s : State) (page : Nat) (hr : Reachable pol s)
    (hp : page < s.npages)
    (hhalt : pol = Policy.rand → ∃ r, random_pick s s.rand = some r) :
    ∃ s1, handler pol s page = some s1 := by
  obtain ⟨hi, hk, _⟩ := reachable_inv pol s hr
  cases pol with
  | rand => exact random_handler_total s page hi hp (hhalt rfl)
  | fifo => exact fifo_handler_total s page hi hk hp
  | custom => exact custom_handler_total s page hi hk hp

/-! ## Runs with stores of the workload -/

theorem program_store_inv (pol : Policy) (s : State) (page val : Nat) (s1 : State)
    (hi : Inv s) (hk : hand_ok pol s) (h : program_store s page val = some s1) :
    Inv s1 ∧ hand_ok pol s1 ∧ s1.nframes = s.nframes := by
  unfold program_store at h
  by_cases hcond : page < s.npages ∧ s.page_bits page = (PROT_READ ||| PROT_WRITE)
  · simp only [hcond, and_self, if_true, Option.some.injEq] at h
    subst h
    refine ⟨⟨hi.cf_le, hi.count, hi.frame_lt, hi.inj, hi.unmapped_zero, hi.bits_cases,
      hi.faults⟩, ?_, rfl⟩
    cases pol <;> exact hk
  · simp [hcond] at h

theorem exec_inv (pol : Policy) :
    ∀ (evs : List Event) (s s1 : State), 0 < s.nframes → Inv s → hand_ok pol s →
      exec pol s evs = some s1 → Inv s1 ∧ hand_ok pol s1 ∧ 0 < s1.nframes := by
  intro evs
  induction evs with
  | nil =>
    intro s s1 hn hi hk h
    simp only [exec, Option.some.injEq] at h
    subst h
    exact ⟨hi, hk, hn⟩
  | cons ev rest ih =>
    intro s s1 hn hi hk h
    cases ev with
    | fault page =>
      simp only [exec] at h
      rcases hh : handler pol s page with _ | s2
      · simp [hh] at h
      · simp only [hh] at h
        have hn2 : 0 < s2.nframes := by rw [(handler_sizes pol s page s2 hh).2]; exact hn
        exact ih s2 s1 hn2 (inv_handler pol s page s2 hi hh)
          (hand_ok_handler pol s page s2 hn hk hh) h
    | store page val =>
      simp only [exec] at h
      rcases hh : program_store s page val with _ | s2
      · simp [hh] at h
      · simp only [hh] at h
        obtain ⟨k1, k2, k3⟩ := program_store_inv pol s page val s2 hi hk hh
        exact ih s2 s1 (by rw [k3]; exact hn) k1 k2 h

theorem reachable_exec_inv (pol : Policy) (s : State) (hr : ReachableExec pol s) :
    Inv s ∧ hand_ok pol s ∧ 0 < s.nframes := by
  obtain ⟨npages, nframes, physmem, disk, draws, evs, hn, hrun⟩ := hr
  exact exec_inv pol evs (init npages nframes physmem disk draws) s hn
    (inv_init _ _ _ _ _) (hand_ok_init pol _ _ _ _ _ hn) hrun

theorem handler_total_inv (pol : Policy) (s : State) (page : Nat) (hi : Inv s)
    (hk : hand_ok pol s) (hp : page < s.npages)
    (hhalt : pol = Policy.rand → ∃ r, random_pick s s.rand = some r) :
    ∃ s1, handler pol s page = some s1 := by
  cases pol with
  | rand => exact random_handler_total s page hi hp (hhalt rfl)
  | fifo => exact fifo_handler_total s page hi hk hp
  | custom => exact custom_handler_total s page hi hk hp

/-! ## The claims -/

/-- C1. For each of the three handlers, a fault on an Unmapped page (bits `0`) while
`current_frames < nframes` returns a state in which the page is mapped to the frame
numbered by the old `current_frames` with bits `PROT_READ`, that frame holds the page's
disk block, `page_faults`, `disk_reads` and `current_frames` have each grown by one, and
`disk_writes`, the disk and every other page's entry are unchanged. Moreover, in a run
from the initial state that frame is the number of misses taken so far: frames are
claimed in the order 0, 1, 2, ... until all `nframes` are used. -/
theorem C1_fill_claims_next_frame (pol : Policy) (s : State) (page : Nat)
    (hp : page < s.npages) (hb : s.page_bits page = 0)
    (hf : s.current_frames < s.nframes) :
    ∃ s1, handler pol s page = some s1 ∧
      s1.page_mapping page = s.current_frames ∧
      s1.page_bits page = PROT_READ ∧
      s1.physmem s.current_frames = s.disk page ∧
      s1.page_faults = s.page_faults + 1 ∧
      s1.disk_reads = s.disk_reads + 1 ∧
      s1.current_frames = s.current_frames + 1 ∧
      s1.disk_writes = s.disk_writes ∧
      s1.disk = s.disk ∧
      (∀ q, q ≠ page →
        s1.page_mapping q = s.page_mapping q ∧ s1.page_bits q = s.page_bits q) ∧
      (Reachable pol s → s.current_frames = s.page_faults ∧ s1.page_mapping page = s.page_faults) := by
  obtain ⟨fi, h⟩ := handler_fill_eq pol s page hp hb hf
  refine ⟨_, h, ?_, ?_, ?_, rfl, rfl, rfl, rfl, rfl, ?_, ?_⟩
  · simp [fill_result]
  · simp [fill_result]
  · simp [fill_result]
  · intro q hq
    simp [fill_result, Function.update_noteq hq]
  · intro hr
    have hfa := (reachable_inv pol s hr).1.faults
    have : s.current_frames = s.page_faults := by omega
    exact ⟨this, by simp [fill_result, this]⟩

/-- Witness of C1: FIFO, 4 pages, 3 frames, page 2 faulting after misses on pages 0 and 1
is given frame 2, the number of misses taken before. -/
theorem C1_fill_claims_next_frame_witness :
    ∃ s, run Policy.fifo (init 4 3 (fun _ => 0) (fun q => q + 10) []) [0, 1] = some s ∧
      ∃ s1, handler Policy.fifo s 2 = some s1 ∧ s1.page_mapping 2 = 2 ∧
        s1.physmem 2 = 12 ∧ s1.current_frames = 3 ∧ s1.page_mapping 2 = s.page_faults :=
  ⟨_, rfl,
    (C1_fill_claims_next_frame Policy.fifo _ 2 (by decide) (by decide) (by decide)).imp
      (fun _ h => ⟨h.1, h.2.1, h.2.2.2.1, h.2.2.2.2.2.2.1,
        (h.2.2.2.2.2.2.2.2.2.2
          ⟨4, 3, fun _ => 0, fun q => q + 10, [], [0, 1], by decide, rfl⟩).2⟩)⟩

/-- C2. For each of the three handlers, in every state reached from the initial state
(at least one frame) by page faults and by stores of the workload into writable pages, a
fault on an Unmapped page when all frames are in use returns (for the random policy:
provided the draws reach a resident page), and there is exactly one victim page `v`,
resident before and Unmapped with entry `(0, 0)` after; the faulting page ends with
bits `PROT_READ` in the frame `v` occupied; if `v` was dirty the contents its frame had
before the call, whatever the workload stored there, are in disk block `v`, and the
frame holds the faulting page's block (so the write-back came before the read); if `v`
was not dirty the disk is unchanged; `page_faults` and `disk_reads` grow by one,
`current_frames` is unchanged and so is every entry other than those of `v` and the
faulting page. -/
theorem C2_evict_replaces_one_victim (pol : Policy) (s : State) (page : Nat)
    (hr : ReachableExec pol s) (hp : page < s.npages) (hb : s.page_bits page = 0)
    (hfull : s.current_frames = s.nframes)
    (hhalt : pol = Policy.rand → ∃ r, random_pick s s.rand = some r) :
    ∃ s1 v, handler pol s page = some s1 ∧
      v < s.npages ∧ s.page_bits v ≠ 0 ∧ s1.page_bits v = 0 ∧ s1.page_mapping v = 0 ∧
      (∀ w, w < s.npages → s.page_bits w ≠ 0 → s1.page_bits w = 0 → w = v) ∧
      s1.page_bits page = PROT_READ ∧ s1.page_mapping page = s.page_mapping v ∧
      (s.page_bits v = (PROT_READ ||| PROT_WRITE) →
        s1.disk v = s.physmem (s.page_mapping v)) ∧
      (s.page_bits v ≠ (PROT_READ ||| PROT_WRITE) → s1.disk = s.disk) ∧
      (∀ b, b ≠ v → s1.disk b = s.disk b) ∧
      s1.physmem (s.page_mapping v) = s.disk page ∧
      s1.page_faults = s.page_faults + 1 ∧
      s1.disk_reads = s.disk_reads + 1 ∧
      s1.current_frames = s.current_frames ∧
      (∀ q, q ≠ v → q ≠ page →
        s1.page_mapping q = s.page_mapping q ∧ s1.page_bits q = s.page_bits q) := by
  obtain ⟨hi, hk, _⟩ := reachable_exec_inv pol s hr
  obtain ⟨s1, h⟩ := handler_total_inv pol s page hi hk hp hhalt
  obtain ⟨_, hc⟩ := handler_cases pol s page s1 h
  rcases hc with ⟨_, _, v, fi, dir, rest, hv, hbv, _, h6⟩ | ⟨_, h2, _⟩ | ⟨h1, _⟩ | ⟨h1, _⟩
  · have hvp : v ≠ page := fun h => hbv (h ▸ hb)
    have hdisk : ∀ b, b ≠ v → disk_after_evict s v b = s.disk b := by
      intro b hbne
      unfold disk_after_evict
      split
      · exact Function.update_noteq hbne _ _
      · rfl
    refine ⟨s1, v, h, hv, hbv, ?_, ?_, ?_, ?_, ?_, ?_, ?_, ?_, ?_, ?_, ?_, ?_, ?_⟩
    · rw [h6]; simp [evict_result, Function.update_noteq hvp]
    · rw [h6]; simp [evict_result, Function.update_noteq hvp]
    · intro w _ hbw hw1
      by_contra hwv
      have hwp : w ≠ page := fun h => hbw (h ▸ hb)
      rw [h6] at hw1
      simp only [evict_result, Function.update_noteq hwp, Function.update_noteq hwv] at hw1
      exact hbw hw1
    · rw [h6]; simp [evict_result]
    · rw [h6]; simp [evict_result]
    · intro hd
      rw [h6]; simp [evict_result, disk_after_evict, hd]
    · intro hd
      rw [h6]; simp [evict_result, disk_after_evict, hd]
    · intro b hbne
      rw [h6]; exact hdisk b hbne
    · rw [h6]
      simp only [evict_result, Function.update_same]
      exact hdisk page (Ne.symm hvp)
    · rw [h6]; rfl
    · rw [h6]; rfl
    · rw [h6]; rfl
    · intro q hqv hqp
      rw [h6]
      simp [evict_result, Function.update_noteq hqp, Function.update_noteq hqv]
  · omega
  · rw [hb] at h1; exact absurd h1.symm prot_read_ne_zero
  · exact absurd hb h1

/-- Witness of C2: FIFO, 3 pages, 2 frames; page 0 is loaded, made writable and stored
into (value 77, its disk block holding 10), page 1 is loaded; the miss on page 2 then
evicts the dirty page 0 from frame 0 and disk block 0 receives the stored value 77. -/
theorem C2_evict_replaces_one_victim_witness :
    ∃ s, exec Policy.fifo (init 3 2 (fun f => f + 50) (fun q => q + 10) [])
        [Event.fault 0, Event.fault 0, Event.store 0 77, Event.fault 1] = some s ∧
      s.page_bits 0 = (PROT_READ ||| PROT_WRITE) ∧ s.physmem (s.page_mapping 0) = 77 ∧
      s.disk 0 = 10 ∧
      (handler Policy.fifo s 2).map (fun t => (t.disk 0, t.page_bits 0, t.disk_writes)) =
        some (77, 0, 1) ∧
      ∃ s1 v, handler Policy.fifo s 2 = some s1 ∧
        v < s.npages ∧ s.page_bits v ≠ 0 ∧ s1.page_bits v = 0 ∧ s1.page_mapping v = 0 ∧
        (∀ w, w < s.npages → s.page_bits w ≠ 0 → s1.page_bits w = 0 → w = v) ∧
        s1.page_bits 2 = PROT_READ ∧ s1.page_mapping 2 = s.page_mapping v ∧
        (s.page_bits v = (PROT_READ ||| PROT_WRITE) →
          s1.disk v = s.physmem (s.page_mapping v)) ∧
        (s.page_bits v ≠ (PROT_READ ||| PROT_WRITE) → s1.disk = s.disk) ∧
        (∀ b, b ≠ v → s1.disk b = s.disk b) ∧
        s1.physmem (s.page_mapping v) = s.disk 2 ∧
        s1.page_faults = s.page_faults + 1 ∧
        s1.disk_reads = s.disk_reads + 1 ∧
        s1.current_frames = s.current_frames ∧
        (∀ q, q ≠ v → q ≠ 2 →
          s1.page_mapping q = s.page_mapping q ∧ s1.page_bits q = s.page_bits q) := by
  refine ⟨_, rfl, by decide, by decide, by decide, by decide, ?_⟩
  refine C2_evict_replaces_one_victim Policy.fifo _ 2 ?_ ?_ ?_ ?_ ?_
  · exact ⟨3, 2, fun f => f + 50, fun q => q + 10, [],
      [Event.fault 0, Event.fault 0, Event.store 0 77, Event.fault 1], by decide, rfl⟩
  · decide
  · decide
  · decide
  · intro h
    exact absurd h (by decide)

/-- C3. For each of the three handlers, a fault on a Resident-Clean page (bits
`PROT_READ`) returns a state that differs only in that page's bits, now
`PROT_READ|PROT_WRITE`: the page keeps its frame, and `page_faults`, `disk_reads`,
`disk_writes`, `current_frames`, `fifo_index`, `bififo_direction`, the disk, physical
memory and every other page's entry are unchanged. -/
theorem C3_write_upgrade_only_changes_bits (pol : Policy) (s : State) (page : Nat)
    (hp : page < s.npages) (hb : s.page_bits page = PROT_READ) :
    ∃ s1, handler pol s page = some s1 ∧
      s1.page_bits page = (PROT_READ ||| PROT_WRITE) ∧
      s1.page_mapping page = s.page_mapping page ∧
      (∀ q, q ≠ page →
        s1.page_mapping q = s.page_mapping q ∧ s1.page_bits q = s.page_bits q) ∧
      s1.page_faults = s.page_faults ∧
      s1.disk_reads = s.disk_reads ∧
      s1.disk_writes = s.disk_writes ∧
      s1.current_frames = s.current_frames ∧
      s1.fifo_index = s.fifo_index ∧
      s1.bififo_direction = s.bififo_direction ∧
      s1.disk = s.disk ∧
      s1.physmem = s.physmem ∧
      s1.rand = s.rand := by
  refine ⟨_, handler_upgrade_eq pol s page hp hb, ?_, ?_, ?_, rfl, rfl, rfl, rfl, rfl, rfl,
    rfl, rfl, rfl⟩
  · simp [upgrade_result]
  · simp [upgrade_result]
  · intro q hq
    simp [upgrade_result, Function.update_noteq hq]

/-- Witness of C3: custom policy, 3 pages, 2 frames; page 0 is clean after its first
fault and a second fault on it only sets its bits to `PROT_READ|PROT_WRITE`. -/
theorem C3_write_upgrade_only_changes_bits_witness :
    ∃ s, run Policy.custom (init 3 2 (fun _ => 0) (fun q => q) []) [0] = some s ∧
      ∃ s1, handler Policy.custom s 0 = some s1 ∧ s1.page_bits 0 = 3 ∧
        s1.page_faults = 1 ∧ s1.disk_reads = 1 :=
  ⟨_, rfl,
    (C3_write_upgrade_only_changes_bits Policy.custom _ 0 (by decide) (by decide)).imp
      (fun _ h => ⟨h.1, h.2.1, h.2.2.2.2.1, h.2.2.2.2.2.1⟩)⟩

/-- C4. For each of the three policies, after every handler call of a run from the
initial state (any number of pages, at least one frame, any fault sequence, any draws),
the number of pages with non-zero bits equals `current_frames`, and `current_frames` is
at most `nframes`. In particular with 8 pages, 3 frames and the random policy the
number of resident pages never exceeds 3. -/
theorem C4_resident_count_is_current_frames (pol : Policy) (npages nframes : Nat)
    (physmem disk : Nat → Nat) (draws ps : List Nat) (s : State) (hn : 1 ≤ nframes)
    (hrun : run pol (init npages nframes physmem disk draws) ps = some s) :
    resident_count s = s.current_frames ∧ s.current_frames ≤ nframes ∧
      s.npages = npages ∧ s.nframes = nframes ∧
      (pol = Policy.rand → npages = 8 → nframes = 3 → resident_count s ≤ 3) := by
  have hi := (reachable_inv pol s ⟨npages, nframes, physmem, disk, draws, ps, hn, hrun⟩).1
  obtain ⟨h1, h2⟩ := run_sizes pol ps _ s hrun
  have hle : s.current_frames ≤ nframes := by
    have := hi.cf_le
    rw [h2] at this
    exact this
  refine ⟨hi.count, hle, h1, h2, ?_⟩
  intro _ _ h3
  rw [hi.count]
  omega

/-- Witness of C4: random policy, 8 pages, 3 frames, a fault sequence touching all 8
pages, with draws on which every victim search ends. -/
theorem C4_resident_count_is_current_frames_witness :
    ∃ s, run Policy.rand (init 8 3 (fun _ => 0) (fun q => q) [5, 0, 7, 1, 3, 2, 4, 6, 5, 3])
        [0, 1, 2, 3, 4, 5, 6, 7] = some s ∧
      resident_count s = s.current_frames ∧ s.current_frames ≤ 3 ∧ resident_count s ≤ 3 :=
  ⟨_, rfl,
    (fun h => ⟨h.1, h.2.1, h.2.2.2.2 rfl rfl rfl⟩)
      (C4_resident_count_is_current_frames Policy.rand 8 3 (fun _ => 0) (fun q => q)
        [5, 0, 7, 1, 3, 2, 4, 6, 5, 3] [0, 1, 2, 3, 4, 5, 6, 7] _ (by decide) rfl)⟩

/-- C5. For each of the three policies, after every handler call of a run from the
initial state (at least one frame), no two distinct resident pages (non-zero bits) are
mapped to the same frame, and every resident page's frame lies in
`[0, current_frames)`. -/
theorem C5_resident_frames_injective (pol : Policy) (npages nframes : Nat)
    (physmem disk : Nat → Nat) (draws ps : List Nat) (s : State) (hn : 1 ≤ nframes)
    (hrun : run pol (init npages nframes physmem disk draws) ps = some s) :
    (∀ q r, q < s.npages → r < s.npages → s.page_bits q ≠ 0 → s.page_bits r ≠ 0 →
        s.page_mapping q = s.page_mapping r → q = r) ∧
      (∀ q, q < s.npages → s.page_bits q ≠ 0 → s.page_mapping q < s.current_frames) := by
  have hi := (reachable_inv pol s ⟨npages, nframes, physmem, disk, draws, ps, hn, hrun⟩).1
  exact ⟨hi.inj, hi.frame_lt⟩

/-- Witness of C5: custom policy, 4 pages, 2 frames, after the faults 0, 1, 2, 3, 0. -/
theorem C5_resident_frames_injective_witness :
    ∃ s, run Policy.custom (init 4 2 (fun _ => 0) (fun q => q) []) [0, 1, 2, 3, 0] = some s ∧
      (∀ q r, q < s.npages → r < s.npages → s.page_bits q ≠ 0 → s.page_bits r ≠ 0 →
        s.page_mapping q = s.page_mapping r → q = r) ∧
      (∀ q, q < s.npages → s.page_bits q ≠ 0 → s.page_mapping q < s.current_frames) :=
  ⟨_, rfl,
    C5_resident_frames_injective Policy.custom 4 2 (fun _ => 0) (fun q => q) []
      [0, 1, 2, 3, 0] _ (by decide) rfl⟩

/-- C6. For each of the three handlers, a handler call that returns increases
`disk_writes` by exactly one if it evicts a dirty page (some page whose bits were
`PROT_READ|PROT_WRITE` is Unmapped afterwards), and leaves `disk_writes` unchanged in
every other case. -/
theorem C6_disk_writes_only_on_dirty_eviction (pol : Policy) (s : State) (page : Nat)
    (s1 : State) (h : handler pol s page = some s1) :
    ((∃ v, v < s.npages ∧ s.page_bits v = (PROT_READ ||| PROT_WRITE) ∧ s1.page_bits v = 0) →
        s1.disk_writes = s.disk_writes + 1) ∧
      ((¬ ∃ v, v < s.npages ∧ s.page_bits v = (PROT_READ ||| PROT_WRITE) ∧
          s1.page_bits v = 0) →
        s1.disk_writes = s.disk_writes) := by
  obtain ⟨hp, hc⟩ := handler_cases pol s page s1 h
  have hrw := prot_rw_ne_zero
  rcases hc with ⟨hb, _, v, fi, dir, rest, hv, hbv, _, h6⟩ | ⟨hb, _, fi, h3⟩ | ⟨hb, h2⟩ |
    ⟨_, _, h3⟩
  · have hvp : v ≠ page := fun h => hbv (h ▸ hb)
    by_cases hd : s.page_bits v = (PROT_READ ||| PROT_WRITE)
    · refine ⟨fun _ => by rw [h6]; simp [evict_result, hd], fun hne => ?_⟩
      exact absurd ⟨v, hv, hd, by rw [h6]; simp [evict_result, Function.update_noteq hvp]⟩ hne
    · refine ⟨?_, fun _ => by rw [h6]; simp [evict_result, hd]⟩
      rintro ⟨w, _, hw, hw1⟩
      exfalso
      have hwp : w ≠ page := by
        intro h; subst h; rw [hb] at hw; exact hrw hw.symm
      have hwv : w ≠ v := by
        intro h; subst h; exact hd hw
      rw [h6] at hw1
      simp only [evict_result, Function.update_noteq hwp, Function.update_noteq hwv] at hw1
      rw [hw] at hw1
      exact hrw hw1
  · refine ⟨?_, fun _ => by rw [h3]; rfl⟩
    rintro ⟨w, _, hw, hw1⟩
    exfalso
    have hwp : w ≠ page := by
      intro h; subst h; rw [hb] at hw; exact hrw hw.symm
    rw [h3] at hw1
    simp only [fill_result, Function.update_noteq hwp] at hw1
    rw [hw] at hw1
    exact hrw hw1
  · refine ⟨?_, fun _ => by rw [h2]; rfl⟩
    rintro ⟨w, _, hw, hw1⟩
    exfalso
    rw [h2] at hw1
    by_cases hwp : w = page
    · subst hwp
      simp only [upgrade_result, Function.update_same] at hw1
      exact hrw hw1
    · simp only [upgrade_result, Function.update_noteq hwp] at hw1
      rw [hw] at hw1
      exact hrw hw1
  · refine ⟨?_, fun _ => by rw [h3]⟩
    rintro ⟨w, _, hw, hw1⟩
    exfalso
    rw [h3, hw] at hw1
    exact hrw hw1

/-- Witness of C6: FIFO, 3 pages, 2 frames; page 0 is dirty after the faults 0, 0, 1 and
the miss on page 2 evicts it, so that `disk_writes` goes from 0 to 1. -/
theorem C6_disk_writes_only_on_dirty_eviction_witness :
    ∃ s s1, run Policy.fifo (init 3 2 (fun _ => 0) (fun q => q) []) [0, 0, 1] = some s ∧
      handler Policy.fifo s 2 = some s1 ∧ s.disk_writes = 0 ∧
      s1.disk_writes = s.disk_writes + 1 := by
  refine ⟨_, _, rfl, rfl, rfl, ?_⟩
  refine (C6_disk_writes_only_on_dirty_eviction Policy.fifo _ 2 _ ?_).1 ?_
  · rfl
  · exact ⟨0, by decide, by decide, by decide⟩

/-- C7 (the code departs from the claim). FIFO, 3 pages, 2 frames, after the misses
0, 1, 2, 0, 1, 2, 1: both frames are in use, page 2 sits in frame 0, page 1 in frame 1,
page 0 is Unmapped and `fifo_index` is 0. The fault on page 0 evicts page 1 from frame 1
and installs page 0 there; page 2, the resident page of frame `fifo_index`, stays. -/
theorem C7_fifo_victim_not_in_hand_frame :
    ∃ s s1, run Policy.fifo (init 3 2 (fun _ => 0) (fun q => q) []) [0, 1, 2, 0, 1, 2, 1] = some s ∧
      handler Policy.fifo s 0 = some s1 ∧
      entries s = [(0, 0), (1, 1), (0, 1)] ∧ s.fifo_index = 0 ∧
      s.current_frames = s.nframes ∧
      entries s1 = [(1, 1), (0, 0), (0, 1)] :=
  ⟨_, _, rfl, rfl, by decide, by decide, by decide, by decide⟩

/-- C8 (the code departs from the claim). FIFO, 3 pages, 2 frames, misses
0, 1, 2, 0, 1, 2. The fourth miss loads page 0 (frame 1), the fifth loads page 1
(frame 0) and leaves `fifo_index` at 0, the frame just filled; the sixth miss then
evicts page 1, loaded last, and keeps page 0, loaded before it. The frames taken by the
four evictions are 0, 1, 0, 0, not the cyclic order 0, 1, 0, 1. -/
theorem C8_fifo_evicts_page_loaded_last :
    frames_given Policy.fifo (init 3 2 (fun _ => 0) (fun q => q) []) [0, 1, 2, 0, 1, 2] =
        some [0, 1, 0, 1, 0, 0] ∧
    (run Policy.fifo (init 3 2 (fun _ => 0) (fun q => q) []) [0, 1, 2]).map entries =
        some [(0, 0), (1, 1), (0, 1)] ∧
      (run Policy.fifo (init 3 2 (fun _ => 0) (fun q => q) []) [0, 1, 2, 0]).map entries =
        some [(1, 1), (0, 0), (0, 1)] ∧
      (run Policy.fifo (init 3 2 (fun _ => 0) (fun q => q) []) [0, 1, 2, 0, 1]).map entries =
        some [(1, 1), (0, 1), (0, 0)] ∧
      (run Policy.fifo (init 3 2 (fun _ => 0) (fun q => q) []) [0, 1, 2, 0, 1]).map
        (fun s => s.fifo_index) = some 0 ∧
      (run Policy.fifo (init 3 2 (fun _ => 0) (fun q => q) []) [0, 1, 2, 0, 1, 2]).map entries =
        some [(1, 1), (0, 0), (0, 1)] :=
  ⟨by decide, by decide, by decide, by decide, by decide, by decide⟩

/-- C9 (the code departs from the claim). Custom policy, 9 pages, 3 frames, misses on
the pages 0, 1, ..., 8 in order. After the three fills the evictions take the frames
0, 1, 2, 1, 0, 2 (the sweep of the claim is 0, 1, 2, 1, 0, 1), and when the last fault is
taken the hand is 0 while the page evicted, page 5, sits in frame 2. -/
theorem C9_custom_sweep_broken :
    frames_given Policy.custom (init 9 3 (fun _ => 0) (fun q => q) [])
        [0, 1, 2, 3, 4, 5, 6, 7, 8] = some [0, 1, 2, 0, 1, 2, 1, 0, 2] ∧
      ∃ s s1, run Policy.custom (init 9 3 (fun _ => 0) (fun q => q) [])
          [0, 1, 2, 3, 4, 5, 6, 7] = some s ∧
        handler Policy.custom s 8 = some s1 ∧
        s.fifo_index = 0 ∧
        entries s = [(0, 0), (0, 0), (0, 0), (0, 0), (0, 0), (2, 1), (1, 1), (0, 1), (0, 0)] ∧
        entries s1 = [(0, 0), (0, 0), (0, 0), (0, 0), (0, 0), (0, 0), (1, 1), (0, 1), (2, 1)] :=
  ⟨by decide, _, _, rfl, rfl, by decide, by decide, by decide⟩

/-- C10, the claim as stated fails with one frame. Custom policy, 2 pages, 1 frame: after
the miss on page 0 the hand is 0 and the direction Forward; the miss on page 1 evicts
page 0 (found at once, so the hand is advanced exactly once) and the advance
`(0 + 1) % 1` leaves the hand at 0: it has not moved by `+1`. -/
theorem C10_one_frame_hand_does_not_move :
    ∃ s s1, run Policy.custom (init 2 1 (fun _ => 0) (fun q => q) []) [0] = some s ∧
      handler Policy.custom s 1 = some s1 ∧
      s.fifo_index = 0 ∧ s.bififo_direction = true ∧ s.page_bits 0 ≠ 0 ∧
      bififo_advance s.nframes s.fifo_index s.bififo_direction =
        some (s1.fifo_index, s1.bififo_direction) ∧
      s1.fifo_index = 0 ∧ s1.fifo_index ≠ s.fifo_index + 1 :=
  ⟨_, _, rfl, rfl, by decide, by decide, by decide, by decide, by decide, by decide⟩

/-- C10 as amended. Custom policy, at least one frame, any state `s` of a run from the
initial state. The hand of `s` is a frame index, Forward at frame 0 and Backward at
frame `nframes - 1` when there are two frames or more, and every advance from such a
position gives such a position again. With two frames or more an advance moves
`fifo_index` by `+1` when Forward and by `-1` when Backward, and reverses the direction
if and only if the new value is 0 or `nframes - 1`; with one frame it leaves the hand at 0
and reverses the direction. With `nframes = 5` the hand is never 5, the direction is
Backward whenever the hand is at frame 4 and Forward whenever it is at frame 0. -/
theorem C10_bififo_advance_step (npages nframes : Nat) (physmem disk : Nat → Nat)
    (draws ps : List Nat) (s : State) (hn : 1 ≤ nframes)
    (hrun : run Policy.custom (init npages nframes physmem disk draws) ps = some s) :
    bififo_ok nframes s.fifo_index s.bififo_direction ∧
      (∀ fi dir, bififo_ok nframes fi dir →
        ∃ fi1 d1, bififo_advance nframes fi dir = some (fi1, d1) ∧
          bififo_ok nframes fi1 d1 ∧
          (2 ≤ nframes → fi1 = (if dir then fi + 1 else fi - 1)) ∧
          (nframes = 1 → fi1 = 0) ∧
          (d1 = (!dir) ↔ (fi1 = 0 ∨ fi1 = (nframes : Int) - 1)) ∧
          (d1 = dir ↔ ¬ (fi1 = 0 ∨ fi1 = (nframes : Int) - 1))) ∧
      (nframes = 5 → s.fifo_index ≠ 5 ∧ (s.fifo_index = 4 → s.bififo_direction = false) ∧
        (s.fifo_index = 0 → s.bififo_direction = true)) := by
  have hk := (reachable_inv Policy.custom s
    ⟨npages, nframes, physmem, disk, draws, ps, hn, hrun⟩).2.1
  simp only [hand_ok] at hk
  rw [(run_sizes Policy.custom ps _ s hrun).2] at hk
  simp only [init] at hk
  refine ⟨hk, ?_, ?_⟩
  · intro fi dir hok
    by_cases h2 : 2 ≤ nframes
    · obtain ⟨hadv, hok1⟩ := bififo_advance_two nframes fi dir h2 hok
      refine ⟨_, _, hadv, hok1, fun _ => rfl, fun h1 => by omega, ?_, ?_⟩
      · by_cases hc : (if dir then fi + 1 else fi - 1) = 0 ∨
            (if dir then fi + 1 else fi - 1) = (nframes : Int) - 1
        · rw [if_pos hc]
          exact ⟨fun _ => hc, fun _ => rfl⟩
        · rw [if_neg hc]
          exact ⟨fun h => absurd h (by cases dir <;> decide), fun h => absurd h hc⟩
      · by_cases hc : (if dir then fi + 1 else fi - 1) = 0 ∨
            (if dir then fi + 1 else fi - 1) = (nframes : Int) - 1
        · rw [if_pos hc]
          exact ⟨fun h => absurd h (by cases dir <;> decide), fun h => absurd hc h⟩
        · rw [if_neg hc]
          exact ⟨fun _ => hc, fun _ => rfl⟩
    · have h1 : nframes = 1 := by omega
      subst h1
      refine ⟨0, !dir, bififo_advance_one fi dir, by simp [bififo_ok], fun h => by omega,
        fun _ => rfl, by simp, ?_⟩
      simp only [true_or, not_true_eq_false, iff_false]
      cases dir <;> decide
  · intro h5
    subst h5
    obtain ⟨h0, h1, h2⟩ := hk
    obtain ⟨h3, h4⟩ := h2 (by decide)
    refine ⟨by omega, fun h => h4 (by rw [h]; rfl), h3⟩

/-- Witness of C10 as amended: custom policy, 12 pages, 5 frames, misses on the pages
0, 1, ..., 9; the hand is then at frame 3 moving Backward, and the next advance takes it
to frame 2. -/
theorem C10_bififo_advance_step_witness :
    ∃ s, run Policy.custom (init 12 5 (fun _ => 0) (fun q => q) [])
        [0, 1, 2, 3, 4, 5, 6, 7, 8, 9] = some s ∧
      s.fifo_index = 3 ∧ s.bififo_direction = false ∧
      bififo_ok 5 s.fifo_index s.bififo_direction ∧ s.fifo_index ≠ 5 := by
  refine ⟨_, rfl, by decide, by decide, ?_⟩
  have h := C10_bififo_advance_step 12 5 (fun _ => 0) (fun q => q) []
    [0, 1, 2, 3, 4, 5, 6, 7, 8, 9] _ (by decide) rfl
  exact ⟨h.1, (h.2.2 rfl).1⟩

theorem handler_dirty_eq (pol : Policy) (s : State) (page : Nat) (hp : page < s.npages)
    (hb : s.page_bits page = (PROT_READ ||| PROT_WRITE)) : handler pol s page = some s := by
  have h0 : s.page_bits page ≠ 0 := by rw [hb]; exact prot_rw_ne_zero
  have h1 : s.page_bits page ≠ PROT_READ := by rw [hb]; decide
  have h0' : (PROT_READ ||| PROT_WRITE) ≠ 0 := prot_rw_ne_zero
  have h1' : (PROT_READ ||| PROT_WRITE) ≠ PROT_READ := by decide
  cases pol with
  | rand => simp [handler, random_handler, page_table_get_entry, hp, hb, h0', h1']
  | fifo => simp [handler, fifo_handler, page_table_get_entry, hp, hb, h0', h1']
  | custom => simp [handler, custom_handler, page_table_get_entry, hp, hb, h0', h1']

/-- C12. For each of the three policies and every state with `current_frames < nframes`,
a fault on an Unmapped page followed by a second fault on the same page (read, then
write) returns both times; together the two calls increase `page_faults` by exactly one
and `disk_reads` by exactly one, leave `disk_writes` unchanged, and leave the page with
bits `PROT_READ|PROT_WRITE` in the frame the first call gave it (the old
`current_frames`). -/
theorem C12_read_then_write_one_fault (pol : Policy) (s : State) (page : Nat)
    (hp : page < s.npages) (hb : s.page_bits page = 0)
    (hf : s.current_frames < s.nframes) :
    ∃ s1 s2, handler pol s page = some s1 ∧ handler pol s1 page = some s2 ∧
      s2.page_faults = s.page_faults + 1 ∧
      s2.disk_reads = s.disk_reads + 1 ∧
      s2.disk_writes = s.disk_writes ∧
      s2.page_bits page = (PROT_READ ||| PROT_WRITE) ∧
      s1.page_mapping page = s.current_frames ∧
      s2.page_mapping page = s1.page_mapping page := by
  obtain ⟨fi, h1⟩ := handler_fill_eq pol s page hp hb hf
  have hb1 : (fill_result s page fi).page_bits page = PROT_READ := by simp [fill_result]
  have h2 := handler_upgrade_eq pol (fill_result s page fi) page hp hb1
  refine ⟨_, _, h1, h2, rfl, rfl, rfl, ?_, ?_, ?_⟩
  · simp [upgrade_result]
  · simp [fill_result]
  · simp [upgrade_result]

/-- Witness of C12: random policy, 3 pages, 2 frames, page 1 touched by a read then a
write from the initial state: one page fault, one disk read, no disk write. -/
theorem C12_read_then_write_one_fault_witness :
    ∃ s1 s2, handler Policy.rand (init 3 2 (fun _ => 0) (fun q => q) []) 1 = some s1 ∧
      handler Policy.rand s1 1 = some s2 ∧
      s2.page_faults = 0 + 1 ∧ s2.disk_reads = 0 + 1 ∧ s2.disk_writes = 0 ∧
      s2.page_bits 1 = (PROT_READ ||| PROT_WRITE) :=
  (C12_read_then_write_one_fault Policy.rand (init 3 2 (fun _ => 0) (fun q => q) []) 1
    (by decide) (by decide) (by decide)).imp
    (fun _ h => h.imp (fun _ h => ⟨h.1, h.2.1, h.2.2.1, h.2.2.2.1, h.2.2.2.2.1, h.2.2.2.2.2.1⟩))

/-- C13. For each of the three handlers, a fault on a page whose bits are
`PROT_READ|PROT_WRITE` (Resident-Dirty) returns the state it was given: the page table,
`page_faults`, `disk_reads`, `disk_writes`, `current_frames`, `fifo_index`,
`bififo_direction` and everything else are unchanged, and so repeating the fault any
number of times changes nothing. -/
theorem C13_fault_on_dirty_page_is_noop (pol : Policy) (s : State) (page : Nat)
    (hp : page < s.npages) (hb : s.page_bits page = (PROT_READ ||| PROT_WRITE)) :
    handler pol s page = some s ∧ ∀ k, run pol s (List.replicate k page) = some s := by
  have h := handler_dirty_eq pol s page hp hb
  refine ⟨h, ?_⟩
  intro k
  induction k with
  | zero => rfl
  | succ k ih =>
    simp only [List.replicate_succ, run, h]
    exact ih

/-- Witness of C13: FIFO, 3 pages, 2 frames; page 0 is dirty after two faults on it, and
three more faults on it leave the state as it is. -/
theorem C13_fault_on_dirty_page_is_noop_witness :
    ∃ s, run Policy.fifo (init 3 2 (fun _ => 0) (fun q => q) []) [0, 0] = some s ∧
      handler Policy.fifo s 0 = some s ∧ run Policy.fifo s (List.replicate 3 0) = some s :=
  ⟨_, rfl,
    (fun h => ⟨h.1, h.2 3⟩)
      (C13_fault_on_dirty_page_is_noop Policy.fifo _ 0 (by decide) (by decide))⟩

theorem random_pick_first (s : State) :
    ∀ (ds : List Nat) (v ef eb : Nat) (rest : List Nat),
      random_pick s ds = some (v, ef, eb, rest) →
      ∃ pre d, ds = pre ++ d :: rest ∧ v = d % s.npages ∧
        ∀ x, x ∈ pre → s.page_bits (x % s.npages) = 0 := by
  intro ds
  induction ds with
  | nil => intro v ef eb rest h; simp [random_pick] at h
  | cons d ds ih =>
    intro v ef eb rest h
    unfold random_pick at h
    by_cases hn : s.npages = 0
    · simp [hn] at h
    · have hlt : d % s.npages < s.npages := Nat.mod_lt _ (Nat.pos_of_ne_zero hn)
      simp only [hn, if_false, page_table_get_entry, hlt, if_true] at h
      by_cases hb : s.page_bits (d % s.npages) = 0
      · simp only [hb, if_true] at h
        obtain ⟨pre, d1, h1, h2, h3⟩ := ih v ef eb rest h
        refine ⟨d :: pre, d1, by rw [h1]; rfl, h2, ?_⟩
        intro x hx
        rcases List.mem_cons.mp hx with hx | hx
        · rw [hx]; exact hb
        · exact h3 x hx
      · simp only [hb, if_false, Option.some.injEq, Prod.mk.injEq] at h
        obtain ⟨h1, _, _, h4⟩ := h
        exact ⟨[], d, by rw [h4]; rfl, h1.symm, fun x hx => by simp at hx⟩

theorem random_pick_of_split (s : State) (hn : 0 < s.npages) (d : Nat) (rest : List Nat)
    (hd : s.page_bits (d % s.npages) ≠ 0) :
    ∀ (pre : List Nat), (∀ x, x ∈ pre → s.page_bits (x % s.npages) = 0) →
      random_pick s (pre ++ d :: rest) =
        some (d % s.npages, s.page_mapping (d % s.npages), s.page_bits (d % s.npages), rest) := by
  have hn0 : s.npages ≠ 0 := by omega
  intro pre
  induction pre with
  | nil =>
    intro _
    have hlt : d % s.npages < s.npages := Nat.mod_lt _ hn
    simp [random_pick, hn0, page_table_get_entry, hlt, hd]
  | cons x pre ih =>
    intro hpre
    have hlt : x % s.npages < s.npages := Nat.mod_lt _ hn
    have hx : s.page_bits (x % s.npages) = 0 := hpre x (List.mem_cons_self _ _)
    simp only [List.cons_append, random_pick, hn0, if_false, page_table_get_entry, hlt, if_true,
      hx]
    exact ih (fun y hy => hpre y (List.mem_cons_of_mem _ hy))

theorem random_handler_evict_pick (s : State) (page : Nat) (s1 : State)
    (h : random_handler s page = some s1) (hb : s.page_bits page = 0)
    (hf : s.current_frames = s.nframes) :
    ∃ v rest, random_pick s s.rand = some (v, s.page_mapping v, s.page_bits v, rest) ∧
      s1 = evict_result s page v s.fifo_index s.bififo_direction rest := by
  unfold random_handler at h
  by_cases hp : page < s.npages
  swap
  · simp [page_table_get_entry, hp] at h
  simp only [page_table_get_entry, hp, if_true, Option.bind_eq_bind, Option.some_bind] at h
  simp only [hb, if_true] at h
  rw [if_pos hf, random_pick_page_faults] at h
  rcases hpick : random_pick s s.rand with _ | ⟨v, ef, eb, rest⟩
  · simp [hpick] at h
  simp only [hpick, Option.some_bind] at h
  obtain ⟨hv, hef, heb, hres⟩ := random_pick_some _ _ _ _ _ _ hpick
  subst hef heb
  refine ⟨v, rest, rfl, ?_⟩
  by_cases hfr : s.page_mapping v < s.nframes
  · by_cases hd : s.page_bits v = (PROT_READ ||| PROT_WRITE)
    · simp [hd, disk_write, page_table_set_entry, disk_read, hv, hp, hfr] at h
      subst h
      simp [evict_result, disk_after_evict, hd, hf]
    · simp [hd, disk_write, page_table_set_entry, disk_read, hv, hp, hfr] at h
      subst h
      simp [evict_result, disk_after_evict, hd, hf]
  · exfalso
    by_cases hd : s.page_bits v = (PROT_READ ||| PROT_WRITE)
    · simp [hd, disk_write, page_table_set_entry, disk_read, hv, hp, hfr] at h
    · simp [hd, disk_write, page_table_set_entry, disk_read, hv, hp, hfr] at h

/-- C14. `random_handler`, with `rand()` a stream of draws, on a fault on an Unmapped
page when all frames are in use. If the call returns, the draws it consumed are a run of
draws naming Unmapped pages followed by one draw `d` naming a resident page; the victim
is `d mod npages`, a resident page in `[0, npages)`, Unmapped afterwards with its frame
given to the faulting page, and the draws after `d` are left in the stream. Conversely,
in a state of a run, whenever the stream has such a first draw naming a resident page
the call returns with that victim. -/
theorem C14_random_victim_is_first_resident_draw (s : State) (page : Nat)
    (hp : page < s.npages) (hb : s.page_bits page = 0)
    (hfull : s.current_frames = s.nframes) :
    (∀ s1, random_handler s page = some s1 →
      ∃ pre d, s.rand = pre ++ d :: s1.rand ∧
        (∀ x, x ∈ pre → s.page_bits (x % s.npages) = 0) ∧
        d % s.npages < s.npages ∧ s.page_bits (d % s.npages) ≠ 0 ∧
        s1.page_bits (d % s.npages) = 0 ∧
        s1.page_mapping page = s.page_mapping (d % s.npages)) ∧
    (Reachable Policy.rand s → ∀ pre d rest, s.rand = pre ++ d :: rest →
      (∀ x, x ∈ pre → s.page_bits (x % s.npages) = 0) →
      s.page_bits (d % s.npages) ≠ 0 →
      ∃ s1, random_handler s page = some s1 ∧ s1.rand = rest ∧
        s1.page_bits (d % s.npages) = 0 ∧
        s1.page_mapping page = s.page_mapping (d % s.npages)) := by
  have key : ∀ s1 v rest, s.page_bits v ≠ 0 →
      s1 = evict_result s page v s.fifo_index s.bififo_direction rest →
      s1.rand = rest ∧ s1.page_bits v = 0 ∧ s1.page_mapping page = s.page_mapping v := by
    intro s1 v rest hbv h1
    have hvp : v ≠ page := fun h => hbv (h ▸ hb)
    rw [h1]
    exact ⟨rfl, by simp [evict_result, Function.update_noteq hvp], by simp [evict_result]⟩
  constructor
  · intro s1 h
    obtain ⟨v, rest, hpick, h1⟩ := random_handler_evict_pick s page s1 h hb hfull
    obtain ⟨hv, _, _, hbv⟩ := random_pick_some _ _ _ _ _ _ hpick
    obtain ⟨pre, d, hsplit, hvd, hpre⟩ := random_pick_first _ _ _ _ _ _ hpick
    obtain ⟨k1, k2, k3⟩ := key s1 v rest hbv h1
    subst hvd
    exact ⟨pre, d, by rw [k1]; exact hsplit, hpre, hv, hbv, k2, k3⟩
  · intro hr pre d rest hsplit hpre hd
    have hpick := random_pick_of_split s (by omega) d rest hd pre hpre
    rw [← hsplit] at hpick
    obtain ⟨s1, h⟩ :=
      random_handler_total s page (reachable_inv Policy.rand s hr).1 hp ⟨_, hpick⟩
    obtain ⟨v, rest1, hpick1, h1⟩ := random_handler_evict_pick s page s1 h hb hfull
    rw [hpick] at hpick1
    simp only [Option.some.injEq, Prod.mk.injEq] at hpick1
    obtain ⟨hv, _, _, hrest⟩ := hpick1
    subst hv hrest
    obtain ⟨k1, k2, k3⟩ := key s1 _ rest hd h1
    exact ⟨s1, h, k1, k2, k3⟩

/-- Witness of C14: random policy, 4 pages, 2 frames, pages 0 and 1 resident; with the
draws 6, 3, 5, 9 the fault on page 2 skips 6 and 3 (pages 2 and 3, Unmapped), evicts
page `5 mod 4 = 1` and leaves the draw 9. -/
theorem C14_random_victim_is_first_resident_draw_witness :
    ∃ s, run Policy.rand (init 4 2 (fun _ => 0) (fun q => q) [6, 3, 5, 9]) [0, 1] = some s ∧
      ∃ s1, random_handler s 2 = some s1 ∧ s1.rand = [9] ∧ s1.page_bits (5 % 4) = 0 :=
  ⟨_, rfl,
    ((C14_random_victim_is_first_resident_draw _ 2 (by decide) (by decide) (by decide)).2
      ⟨4, 2, fun _ => 0, fun q => q, [6, 3, 5, 9], [0, 1], by decide, rfl⟩
      [6, 3] 5 [9] rfl (by decide) (by decide)).imp
      (fun _ h => ⟨h.1, h.2.1, h.2.2.1⟩)⟩

/-- C15. Argument validation in `main`: it exits with code 1, before the disk and the page
table are created, exactly when the number of arguments is not 4 (`argc != 5`), or the
policy name (`argv[3]`) is none of `rand`, `fifo`, `custom`, or the workload name
(`argv[4]`) is none of `sort`, `scan`, `focus`, or the workload is `sort` and the frame
count `atoi(argv[2])` is below 2; for every other argument vector validation passes. -/
theorem C15_main_validate_exit_one (atoi : String → Int) (argv : List String) :
    (main_validate atoi argv = some 1 ↔
      (argv.length ≠ 5 ∨
       (argv.getD 3 "" ≠ "rand" ∧ argv.getD 3 "" ≠ "fifo" ∧ argv.getD 3 "" ≠ "custom") ∨
       (argv.getD 4 "" ≠ "sort" ∧ argv.getD 4 "" ≠ "scan" ∧ argv.getD 4 "" ≠ "focus") ∨
       (argv.getD 4 "" = "sort" ∧ atoi (argv.getD 2 "") < 2))) ∧
    (main_validate atoi argv ≠ some 1 → main_validate atoi argv = none) := by
  unfold main_validate
  generalize atoi (argv.getD 2 "") = nf
  generalize argv.getD 3 "" = alg
  generalize argv.getD 4 "" = prog
  by_cases hlen : argv.length ≠ 5
  · simp [hlen]
  · simp only [hlen, if_false, false_or]
    by_cases halg : alg ≠ "rand" ∧ alg ≠ "fifo" ∧ alg ≠ "custom"
    · simp [halg]
    · simp only [halg, if_false, false_or]
      by_cases hsort : prog = "sort"
      · by_cases hfr : nf < 2
        · simp [hsort, hfr]
        · simp [hsort, hfr]
      · by_cases hscan : prog = "scan"
        · simp [hscan]
        · by_cases hfocus : prog = "focus"
          · simp [hfocus]
          · simp [hsort, hscan, hfocus]

/-! ## The two loops of the eviction branch -/

theorem frame_scan_first (s : State) (left v : Nat) (hv : v < left)
    (hm : (s.page_mapping v : Int) = s.fifo_index)
    (hfirst : ∀ q, q < v → (s.page_mapping q : Int) ≠ s.fifo_index) :
    frame_scan s left 0 = some v := by
  obtain ⟨e, he⟩ := frame_scan_total s left 0 v (Nat.zero_le _) (by omega) hm
  obtain ⟨_, _, h3, h4⟩ := frame_scan_some s left 0 e he
  have h1 : ¬ e < v := fun h => hfirst e h h3
  have h2 : ¬ v < e := fun h => h4 v (Nat.zero_le _) h hm
  have : e = v := by omega
  rw [he, this]

theorem fifo_pick_valid_mono (s : State) :
    ∀ (left j e : Nat) (fi : Int) (r : Nat × Nat × Nat × Int),
      fifo_pick_valid s left e fi = some r → fifo_pick_valid s (left + j) e fi = some r := by
  intro left
  induction left with
  | zero => intro j e fi r h; simp [fifo_pick_valid] at h
  | succ left ih =>
    intro j e fi r h
    have hj : left + 1 + j = (left + j) + 1 := by omega
    rw [hj]
    unfold fifo_pick_valid at h ⊢
    rcases hg : page_table_get_entry s e with _ | ⟨ef, eb⟩
    · simp [hg] at h
    · simp only [hg] at h ⊢
      by_cases hb : eb = 0
      · simp only [hb, if_true] at h ⊢
        rcases hc : c_mod (fi + 1) s.nframes with _ | fi1
        · simp [hc] at h
        · simp only [hc] at h ⊢
          exact ih j _ _ r h
      · simp only [hb, if_false] at h ⊢
        exact h

theorem custom_pick_valid_mono (s : State) :
    ∀ (left j e : Nat) (fi : Int) (dir : Bool) (r : Nat × Nat × Nat × Int × Bool),
      custom_pick_valid s left e fi dir = some r →
      custom_pick_valid s (left + j) e fi dir = some r := by
  intro left
  induction left with
  | zero => intro j e fi dir r h; simp [custom_pick_valid] at h
  | succ left ih =>
    intro j e fi dir r h
    have hj : left + 1 + j = (left + j) + 1 := by omega
    rw [hj]
    unfold custom_pick_valid at h ⊢
    rcases hg : page_table_get_entry s e with _ | ⟨ef, eb⟩
    · simp [hg] at h
    · simp only [hg] at h ⊢
      by_cases hb : eb = 0
      · simp only [hb, if_true] at h ⊢
        rcases hc : bififo_advance s.nframes fi dir with _ | ⟨fi1, d1⟩
        · simp [hc] at h
        · simp only [hc] at h ⊢
          exact ih j _ _ _ r h
      · simp only [hb, if_false] at h ⊢
        exact h

theorem full_scan_stops (s : State) (hi : Inv s) (hfull : s.current_frames = s.nframes)
    (hk : hand_in_range s.nframes s.fifo_index) :
    ∃ e q, e < s.npages ∧ frame_scan s s.npages 0 = some e ∧
      frame_scan s (e + 1) 0 = some e ∧ q < s.npages ∧ s.page_bits q ≠ 0 := by
  obtain ⟨h0, h1⟩ := hk
  obtain ⟨q, hq, hbq, hmq⟩ := exists_page_of_frame s hi hfull s.fifo_index.toNat (by omega)
  have hmq2 : (s.page_mapping q : Int) = s.fifo_index := by rw [hmq]; omega
  obtain ⟨e, hscan⟩ := frame_scan_total s s.npages 0 q (Nat.zero_le _) (by omega) hmq2
  obtain ⟨_, he, h3, h4⟩ := frame_scan_some s _ _ _ hscan
  refine ⟨e, q, by omega, hscan, ?_, hq, hbq⟩
  exact frame_scan_first s (e + 1) e (by omega) h3 (fun r hr => h4 r (Nat.zero_le _) hr)

theorem fifo_evict_loops (s : State) (hi : Inv s) (hfull : s.current_frames = s.nframes)
    (hk : hand_in_range s.nframes s.fifo_index) :
    ∃ e k v fi1, e < s.npages ∧ k < s.npages ∧
      frame_scan s s.npages 0 = some e ∧ frame_scan s (e + 1) 0 = some e ∧
      fifo_pick_valid s (k + 1) e s.fifo_index =
        some (v, s.page_mapping v, s.page_bits v, fi1) ∧
      fifo_pick_valid s s.npages e s.fifo_index =
        some (v, s.page_mapping v, s.page_bits v, fi1) ∧
      v < s.npages ∧ s.page_bits v ≠ 0 := by
  have hn : 0 < s.nframes := by
    obtain ⟨h0, h1⟩ := hk
    omega
  obtain ⟨e, q, he, hscan, hscan1, hq, hbq⟩ := full_scan_stops s hi hfull hk
  obtain ⟨d, hd, hde⟩ := exists_cyclic_offset s.npages e q he hq
  obtain ⟨⟨v, ef, eb, fi1⟩, hpick⟩ :=
    fifo_pick_valid_total s hn d (d + 1) e s.fifo_index (Nat.lt_succ_self d) he
      (by rw [hde]; exact hbq)
  obtain ⟨hv, hef, heb, hres, _⟩ := fifo_pick_valid_some _ _ _ _ _ _ _ _ hpick
  subst hef heb
  have hmono := fifo_pick_valid_mono s (d + 1) (s.npages - (d + 1)) e s.fifo_index _ hpick
  have hsum : d + 1 + (s.npages - (d + 1)) = s.npages := by omega
  rw [hsum] at hmono
  exact ⟨e, d, v, fi1, he, hd, hscan, hscan1, hpick, hmono, hv, hres⟩

theorem custom_evict_loops (s : State) (hi : Inv s) (hfull : s.current_frames = s.nframes)
    (hk : bififo_ok s.nframes s.fifo_index s.bififo_direction) :
    ∃ e k v fi1 d1, e < s.npages ∧ k < s.npages ∧
      frame_scan s s.npages 0 = some e ∧ frame_scan s (e + 1) 0 = some e ∧
      custom_pick_valid s (k + 1) e s.fifo_index s.bififo_direction =
        some (v, s.page_mapping v, s.page_bits v, fi1, d1) ∧
      custom_pick_valid s s.npages e s.fifo_index s.bififo_direction =
        some (v, s.page_mapping v, s.page_bits v, fi1, d1) ∧
      v < s.npages ∧ s.page_bits v ≠ 0 := by
  have hn : 0 < s.nframes := by
    obtain ⟨h0, h1, _⟩ := hk
    omega
  obtain ⟨e, q, he, hscan, hscan1, hq, hbq⟩ :=
    full_scan_stops s hi hfull ⟨hk.1, hk.2.1⟩
  obtain ⟨d, hd, hde⟩ := exists_cyclic_offset s.npages e q he hq
  obtain ⟨⟨v, ef, eb, fi1, d1⟩, hpick⟩ :=
    custom_pick_valid_total s hn d (d + 1) e s.fifo_index s.bififo_direction
      (Nat.lt_succ_self d) he (by rw [hde]; exact hbq) hk
  obtain ⟨hv, hef, heb, hres⟩ := custom_pick_valid_some _ _ _ _ _ _ _ _ _ _ hpick
  subst hef heb
  have hmono :=
    custom_pick_valid_mono s (d + 1) (s.npages - (d + 1)) e s.fifo_index s.bififo_direction _
      hpick
  have hsum : d + 1 + (s.npages - (d + 1)) = s.npages := by omega
  rw [hsum] at hmono
  exact ⟨e, d, v, fi1, d1, he, hd, hscan, hscan1, hpick, hmono, hv, hres⟩

/-- C16. In every state of a run (at least one frame) and for every faulting page in
`[0, npages)`, `fifo_handler` and `custom_handler` return. When their eviction branch is
taken (page Unmapped, all frames in use) some page is resident, the frame-lookup scan
stops at an index `e < npages` after reading the `e + 1 ≤ npages` entries `0, ..., e`,
and the loop "pick a valid page" ends after `k < npages` iterations (it looks at `k + 1`
entries). -/
theorem C16_fifo_custom_handlers_terminate (s : State) (page : Nat)
    (hp : page < s.npages) :
    (Reachable Policy.fifo s →
      (∃ s1, fifo_handler s page = some s1) ∧
      (s.page_bits page = 0 → s.current_frames = s.nframes →
        (∃ q, q < s.npages ∧ s.page_bits q ≠ 0) ∧
        ∃ e k r, e < s.npages ∧ k < s.npages ∧
          frame_scan s (e + 1) 0 = some e ∧ frame_scan s s.npages 0 = some e ∧
          fifo_pick_valid s (k + 1) e s.fifo_index = some r ∧
          fifo_pick_valid s s.npages e s.fifo_index = some r)) ∧
    (Reachable Policy.custom s →
      (∃ s1, custom_handler s page = some s1) ∧
      (s.page_bits page = 0 → s.current_frames = s.nframes →
        (∃ q, q < s.npages ∧ s.page_bits q ≠ 0) ∧
        ∃ e k r, e < s.npages ∧ k < s.npages ∧
          frame_scan s (e + 1) 0 = some e ∧ frame_scan s s.npages 0 = some e ∧
          custom_pick_valid s (k + 1) e s.fifo_index s.bififo_direction = some r ∧
          custom_pick_valid s s.npages e s.fifo_index s.bififo_direction = some r)) := by
  constructor
  · intro hr
    obtain ⟨hi, hk, _⟩ := reachable_inv Policy.fifo s hr
    refine ⟨fifo_handler_total s page hi hk hp, ?_⟩
    intro _ hfull
    obtain ⟨e, k, v, fi1, he, hk1, h1, h2, h3, h4, hv, hbv⟩ := fifo_evict_loops s hi hfull hk
    exact ⟨⟨v, hv, hbv⟩, e, k, _, he, hk1, h2, h1, h3, h4⟩
  · intro hr
    obtain ⟨hi, hk, _⟩ := reachable_inv Policy.custom s hr
    refine ⟨custom_handler_total s page hi hk hp, ?_⟩
    intro _ hfull
    obtain ⟨e, k, v, fi1, d1, he, hk1, h1, h2, h3, h4, hv, hbv⟩ :=
      custom_evict_loops s hi hfull hk
    exact ⟨⟨v, hv, hbv⟩, e, k, _, he, hk1, h2, h1, h3, h4⟩

/-- Witness of C16: FIFO, 4 pages, 2 frames, after the misses 0, 1, 2, 3; on the fault
on page 0 the scan stops at once on page 0 and the second loop ends within 4 entries. -/
theorem C16_fifo_custom_handlers_terminate_witness :
    ∃ s, run Policy.fifo (init 4 2 (fun _ => 0) (fun q => q) []) [0, 1, 2, 3] = some s ∧
      (∃ s1, fifo_handler s 0 = some s1) ∧
      ∃ e k r, e < s.npages ∧ k < s.npages ∧
        frame_scan s (e + 1) 0 = some e ∧ frame_scan s s.npages 0 = some e ∧
        fifo_pick_valid s (k + 1) e s.fifo_index = some r ∧
        fifo_pick_valid s s.npages e s.fifo_index = some r :=
  ⟨_, rfl,
    (fun h => ⟨h.1, (h.2 (by decide) (by decide)).2⟩)
      ((C16_fifo_custom_handlers_terminate _ 0 (by decide)).1
        ⟨4, 2, fun _ => 0, fun q => q, [], [0, 1, 2, 3], by decide, rfl⟩)⟩

/-- C18. In every state of a run (at least one frame), when `fifo_handler` or
`custom_handler` takes its eviction branch (page Unmapped, all frames in use), the
frame-lookup scan stops at an index `e < npages`, having read only the entries
`page_mapping[0], ..., page_mapping[e]` (it gives the same result when cut off after
`e + 1` entries), so `page_mapping[npages]` is never read; `page_table_get_entry` is
given `e` and then only indices of `[0, npages)`, the page finally picked is in
`[0, npages)`, and the handler returns. -/
theorem C18_frame_scan_stays_in_bounds (s : State) (page : Nat)
    (hp : page < s.npages) (_hb : s.page_bits page = 0)
    (hfull : s.current_frames = s.nframes) :
    (Reachable Policy.fifo s →
      ∃ e v ef eb fi1, e < s.npages ∧ frame_scan s s.npages 0 = some e ∧
        frame_scan s (e + 1) 0 = some e ∧
        page_table_get_entry s e = some (s.page_mapping e, s.page_bits e) ∧
        fifo_pick_valid s s.npages e s.fifo_index = some (v, ef, eb, fi1) ∧ v < s.npages ∧
        ∃ s1, fifo_handler s page = some s1) ∧
    (Reachable Policy.custom s →
      ∃ e v ef eb fi1 d1, e < s.npages ∧ frame_scan s s.npages 0 = some e ∧
        frame_scan s (e + 1) 0 = some e ∧
        page_table_get_entry s e = some (s.page_mapping e, s.page_bits e) ∧
        custom_pick_valid s s.npages e s.fifo_index s.bififo_direction =
          some (v, ef, eb, fi1, d1) ∧ v < s.npages ∧
        ∃ s1, custom_handler s page = some s1) := by
  constructor
  · intro hr
    obtain ⟨hi, hk, _⟩ := reachable_inv Policy.fifo s hr
    obtain ⟨e, k, v, fi1, he, _, h1, h2, _, h4, hv, _⟩ := fifo_evict_loops s hi hfull hk
    exact ⟨e, v, _, _, fi1, he, h1, h2, by simp [page_table_get_entry, he], h4, hv,
      fifo_handler_total s page hi hk hp⟩
  · intro hr
    obtain ⟨hi, hk, _⟩ := reachable_inv Policy.custom s hr
    obtain ⟨e, k, v, fi1, d1, he, _, h1, h2, _, h4, hv, _⟩ :=
      custom_evict_loops s hi hfull hk
    exact ⟨e, v, _, _, fi1, d1, he, h1, h2, by simp [page_table_get_entry, he], h4, hv,
      custom_handler_total s page hi hk hp⟩

/-- Witness of C18: custom policy, 4 pages, 2 frames, after the misses 0, 1, 2; on the
fault on page 3 the scan stops inside the table. -/
theorem C18_frame_scan_stays_in_bounds_witness :
    ∃ s, run Policy.custom (init 4 2 (fun _ => 0) (fun q => q) []) [0, 1, 2] = some s ∧
      ∃ e v ef eb fi1 d1, e < s.npages ∧ frame_scan s s.npages 0 = some e ∧
        frame_scan s (e + 1) 0 = some e ∧
        page_table_get_entry s e = some (s.page_mapping e, s.page_bits e) ∧
        custom_pick_valid s s.npages e s.fifo_index s.bififo_direction =
          some (v, ef, eb, fi1, d1) ∧ v < s.npages ∧
        ∃ s1, custom_handler s 3 = some s1 :=
  ⟨_, rfl,
    (C18_frame_scan_stays_in_bounds _ 3 (by decide) (by decide) (by decide)).2
      ⟨4, 2, fun _ => 0, fun q => q, [], [0, 1, 2], by decide, rfl⟩⟩

theorem fifo_pick_valid_resident (s : State) (left e : Nat) (fi : Int)
    (he : e < s.npages) (hb : s.page_bits e ≠ 0) :
    fifo_pick_valid s (left + 1) e fi = some (e, s.page_mapping e, s.page_bits e, fi) := by
  simp [fifo_pick_valid, page_table_get_entry, he, hb]

/-- C17. Custom policy, at least one frame, any state `s` of a run from the initial
state (`fifo_index = 0`, direction Forward). The hand is a frame index,
`0 <= fifo_index < nframes`. With two frames or more the direction is Forward whenever
the hand is at 0 and Backward whenever it is at `nframes - 1`; these facts hold again
after every advance, so the decrement `(fifo_index - 1) % nframes`, which C++ truncating
`%` would evaluate to `-1` at `fifo_index = 0`, is only evaluated with `fifo_index >= 1`
and gives `fifo_index - 1`. With one frame the decrement `(0 - 1) % 1` gives 0. -/
theorem C17_custom_hand_in_range (npages nframes : Nat) (physmem disk : Nat → Nat)
    (draws ps : List Nat) (s : State) (hn : 1 ≤ nframes)
    (hrun : run Policy.custom (init npages nframes physmem disk draws) ps = some s) :
    (0 ≤ s.fifo_index ∧ s.fifo_index < nframes) ∧
      (2 ≤ nframes → (s.fifo_index = 0 → s.bififo_direction = true) ∧
        (s.fifo_index = (nframes : Int) - 1 → s.bififo_direction = false)) ∧
      bififo_ok nframes s.fifo_index s.bififo_direction ∧
      (∀ fi dir, bififo_ok nframes fi dir →
        (∃ fi1 d1, bififo_advance nframes fi dir = some (fi1, d1) ∧
          bififo_ok nframes fi1 d1) ∧
        (2 ≤ nframes → dir = false →
          1 ≤ fi ∧ c_mod (fi - 1) nframes = some (fi - 1))) ∧
      (2 ≤ nframes → c_mod (0 - 1) nframes = some (-1)) ∧
      (nframes = 1 → s.fifo_index = 0 ∧ c_mod (s.fifo_index - 1) nframes = some 0) := by
  have hk := (reachable_inv Policy.custom s
    ⟨npages, nframes, physmem, disk, draws, ps, hn, hrun⟩).2.1
  simp only [hand_ok] at hk
  rw [(run_sizes Policy.custom ps _ s hrun).2] at hk
  simp only [init] at hk
  have hnz : (nframes : Int) ≠ 0 := by omega
  refine ⟨⟨hk.1, hk.2.1⟩, hk.2.2, hk, ?_, ?_, ?_⟩
  · intro fi dir hok
    refine ⟨bififo_advance_ok nframes fi dir (by omega) hok, ?_⟩
    intro h2 hd
    obtain ⟨h0, h1, h3⟩ := hok
    have hfi : 1 ≤ fi := by
      by_contra hc
      have h00 : fi = 0 := by omega
      have := (h3 h2).1 h00
      rw [hd] at this
      exact absurd this (by decide)
    refine ⟨hfi, ?_⟩
    simp only [c_mod, hnz, if_false]
    rw [tmod_small (fi - 1) nframes (by omega) (by omega)]
  · intro h2
    simp only [c_mod, hnz, if_false, Option.some.injEq]
    obtain ⟨k, rfl⟩ : ∃ k, nframes = k + 2 := ⟨nframes - 2, by omega⟩
    show -(((0 + 1) % (k + 2) : Nat) : Int) = -1
    rw [Nat.mod_eq_of_lt (by omega)]
    rfl
  · intro h1
    subst h1
    obtain ⟨h0, h2, _⟩ := hk
    have hz : s.fifo_index = 0 := by omega
    refine ⟨hz, ?_⟩
    rw [hz]
    decide

/-- Witness of C17: custom policy, 5 pages, 3 frames, after the misses 0, 1, 2, 3, 4 the
hand is at the top frame 2, moving Backward. -/
theorem C17_custom_hand_in_range_witness :
    ∃ s, run Policy.custom (init 5 3 (fun _ => 0) (fun q => q) []) [0, 1, 2, 3, 4] = some s ∧
      s.fifo_index = 2 ∧ s.bififo_direction = false ∧
      (0 ≤ s.fifo_index ∧ s.fifo_index < (3 : Nat)) :=
  ⟨_, rfl, by decide, by decide,
    (C17_custom_hand_in_range 5 3 (fun _ => 0) (fun q => q) [] [0, 1, 2, 3, 4] _
      (by decide) rfl).1⟩

/-- C19. `fifo_handler`, in a state of a run (at least one frame; every Unmapped entry
then stores frame 0) with all frames in use and `fifo_index` different from 0: a fault on
an Unmapped page returns; the frame-lookup scan stops on the one resident page `v`
mapped to frame `fifo_index`, the loop "pick a valid page" ends without an iteration
(it looks at one entry and leaves the hand alone), `v` is the one page evicted, the
faulting page takes its frame, and afterwards `fifo_index` is the old value plus one
modulo `nframes`. -/
theorem C19_fifo_nonzero_hand_exact (s : State) (page : Nat)
    (hr : Reachable Policy.fifo s) (hp : page < s.npages) (hb : s.page_bits page = 0)
    (hfull : s.current_frames = s.nframes) (hfi : s.fifo_index ≠ 0) :
    (∀ q, s.page_bits q = 0 → s.page_mapping q = 0) ∧
    ∃ s1 v, fifo_handler s page = some s1 ∧
      v < s.npages ∧ s.page_bits v ≠ 0 ∧ (s.page_mapping v : Int) = s.fifo_index ∧
      (∀ w, w < s.npages → s.page_bits w ≠ 0 → (s.page_mapping w : Int) = s.fifo_index →
        w = v) ∧
      frame_scan s s.npages 0 = some v ∧
      fifo_pick_valid s 1 v s.fifo_index =
        some (v, s.page_mapping v, s.page_bits v, s.fifo_index) ∧
      fifo_pick_valid s s.npages v s.fifo_index =
        some (v, s.page_mapping v, s.page_bits v, s.fifo_index) ∧
      s1.page_bits v = 0 ∧
      (∀ w, w < s.npages → s.page_bits w ≠ 0 → s1.page_bits w = 0 → w = v) ∧
      s1.page_bits page = PROT_READ ∧
      s1.page_mapping page = s.page_mapping v ∧
      s1.fifo_index = (s.fifo_index + 1) % (s.nframes : Int) := by
  obtain ⟨hi, hk, hn⟩ := reachable_inv Policy.fifo s hr
  simp only [hand_ok] at hk
  refine ⟨hi.unmapped_zero, ?_⟩
  obtain ⟨s1, h⟩ := fifo_handler_total s page hi hk hp
  obtain ⟨_, hc⟩ := fifo_handler_cases s page s1 h
  rcases hc with ⟨_, _, e, v, fi1, fi2, hscan, hpick, hc2, hv, hbv, _, h6⟩ | ⟨_, h2, _⟩ |
    ⟨h1, _⟩ | ⟨h1, _⟩
  · obtain ⟨_, he, hme, _⟩ := frame_scan_some s _ _ _ hscan
    have he : e < s.npages := by omega
    have hbe : s.page_bits e ≠ 0 := by
      intro h0
      have := hi.unmapped_zero e h0
      rw [this] at hme
      exact hfi hme.symm
    obtain ⟨l, hl⟩ : ∃ l, s.npages = l + 1 := ⟨s.npages - 1, by omega⟩
    have hpick2 := fifo_pick_valid_resident s l e s.fifo_index he hbe
    rw [← hl, hpick] at hpick2
    simp only [Option.some.injEq, Prod.mk.injEq] at hpick2
    obtain ⟨hve, _, _, hfi1⟩ := hpick2
    subst hve hfi1
    have hvp : v ≠ page := fun h => hbv (h ▸ hb)
    have hfi2 : fi2 = (s.fifo_index + 1) % (s.nframes : Int) := by
      obtain ⟨h0, _⟩ := hk
      unfold c_mod at hc2
      have hnz : (s.nframes : Int) ≠ 0 := by omega
      simp only [hnz, if_false, Option.some.injEq] at hc2
      rw [← hc2, Int.tmod_eq_emod (by omega) (by omega)]
    refine ⟨s1, v, h, hv, hbv, hme, ?_, hscan, fifo_pick_valid_resident s 0 v _ he hbe,
      hpick, ?_, ?_, ?_, ?_, ?_⟩
    · intro w hw hbw hmw
      have : s.page_mapping w = s.page_mapping v := by
        have := hmw.trans hme.symm
        exact_mod_cast this
      exact hi.inj w v hw hv hbw hbv this
    · rw [h6]; simp [evict_result, Function.update_noteq hvp]
    · intro w _ hbw hw1
      by_contra hwv
      have hwp : w ≠ page := fun h => hbw (h ▸ hb)
      rw [h6] at hw1
      simp only [evict_result, Function.update_noteq hwp, Function.update_noteq hwv] at hw1
      exact hbw hw1
    · rw [h6]; simp [evict_result]
    · rw [h6]; simp [evict_result]
    · rw [h6]; exact hfi2
  · omega
  · rw [hb] at h1; exact absurd h1.symm prot_read_ne_zero
  · exact absurd hb h1

/-- Witness of C19: FIFO, 4 pages, 2 frames, after the misses 0, 1, 2 the hand is 1; the
fault on page 3 evicts page 1 from frame 1 and the hand returns to 0. -/
theorem C19_fifo_nonzero_hand_exact_witness :
    ∃ s, run Policy.fifo (init 4 2 (fun _ => 0) (fun q => q) []) [0, 1, 2] = some s ∧
      s.fifo_index = 1 ∧
      ∃ s1 v, fifo_handler s 3 = some s1 ∧ v < s.npages ∧ s.page_bits v ≠ 0 ∧
        (s.page_mapping v : Int) = s.fifo_index :=
  ⟨_, rfl, by decide,
    (C19_fifo_nonzero_hand_exact _ 3
      ⟨4, 2, fun _ => 0, fun q => q, [], [0, 1, 2], by decide, rfl⟩
      (by decide) (by decide) (by decide) (by decide)).2.imp
      (fun _ h => h.imp (fun _ h => ⟨h.1, h.2.1, h.2.2.1, h.2.2.2.1⟩))⟩

/-! ## Coherence of frames and disk blocks -/

theorem disk_after_evict_ne (s : State) (v b : Nat) (h : b ≠ v) :
    disk_after_evict s v b = s.disk b := by
  unfold disk_after_evict
  split
  · exact Function.update_noteq h _ _
  · rfl

theorem coherent_fill (s : State) (page : Nat) (fi : Int) (hi : Inv s) (hc : Coherent s)
    (hp : page < s.npages) (hb : s.page_bits page = 0) :
    Coherent (fill_result s page fi) ∧
      ∀ q, q < s.npages → page_contents (fill_result s page fi) q = page_contents s q := by
  have hother : ∀ q, q < s.npages → q ≠ page → s.page_bits q ≠ 0 →
      Function.update s.physmem s.current_frames (s.disk page) (s.page_mapping q) =
        s.physmem (s.page_mapping q) := by
    intro q hq _ hbq
    have := hi.frame_lt q hq hbq
    exact Function.update_noteq (by omega) _ _
  constructor
  · intro q hq hbq
    simp only [fill_result] at hq hbq ⊢
    by_cases hqp : q = page
    · subst hqp
      rw [Function.update_same, Function.update_same]
    · rw [Function.update_noteq hqp] at hbq ⊢
      have hb0 : s.page_bits q ≠ 0 := by rw [hbq]; exact prot_read_ne_zero
      rw [hother q hq hqp hb0]
      exact hc q hq hbq
  · intro q hq
    simp only [page_contents, fill_result]
    by_cases hqp : q = page
    · subst hqp
      simp only [Function.update_same, hb, ne_eq, prot_read_ne_zero, not_false_eq_true,
        if_true, not_true_eq_false, if_false]
      rw [Function.update_same, Function.update_same]
    · rw [Function.update_noteq hqp, Function.update_noteq hqp]
      by_cases hb0 : s.page_bits q = 0
      · simp [hb0]
      · simp only [hb0, ne_eq, not_false_eq_true, if_true]
        exact hother q hq hqp hb0

theorem coherent_evict (s : State) (page v : Nat) (fi : Int) (dir : Bool) (rest : List Nat)
    (hi : Inv s) (hc : Coherent s) (hp : page < s.npages) (hb : s.page_bits page = 0)
    (hv : v < s.npages) (hbv : s.page_bits v ≠ 0) :
    Coherent (evict_result s page v fi dir rest) ∧
      ∀ q, q < s.npages →
        page_contents (evict_result s page v fi dir rest) q = page_contents s q := by
  have hvp : v ≠ page := fun h => hbv (h ▸ hb)
  have hdp : disk_after_evict s v page = s.disk page := disk_after_evict_ne s v page (Ne.symm hvp)
  have hother : ∀ q, q < s.npages → q ≠ v → s.page_bits q ≠ 0 →
      Function.update s.physmem (s.page_mapping v) (disk_after_evict s v page)
        (s.page_mapping q) = s.physmem (s.page_mapping q) := by
    intro q hq hqv hbq
    have hne : s.page_mapping q ≠ s.page_mapping v := fun h => hqv (hi.inj q v hq hv hbq hbv h)
    exact Function.update_noteq hne _ _
  constructor
  · intro q hq hbq
    simp only [evict_result] at hq hbq ⊢
    by_cases hqp : q = page
    · subst hqp
      rw [Function.update_same, Function.update_same]
    · rw [Function.update_noteq hqp] at hbq ⊢
      have hqv : q ≠ v := by
        intro h
        subst h
        rw [Function.update_same] at hbq
        exact prot_read_ne_zero hbq.symm
      rw [Function.update_noteq hqv] at hbq ⊢
      have hb0 : s.page_bits q ≠ 0 := by rw [hbq]; exact prot_read_ne_zero
      rw [hother q hq hqv hb0, disk_after_evict_ne s v q hqv]
      exact hc q hq hbq
  · intro q hq
    simp only [page_contents, evict_result]
    by_cases hqp : q = page
    · subst hqp
      simp only [Function.update_same, hb, ne_eq, prot_read_ne_zero, not_false_eq_true,
        if_true, not_true_eq_false, if_false]
      rw [Function.update_same, Function.update_same]
      exact hdp
    · rw [Function.update_noteq hqp, Function.update_noteq hqp]
      by_cases hqv : q = v
      · subst hqv
        simp only [Function.update_same, ne_eq, not_true_eq_false, if_false, hbv,
          not_false_eq_true, if_true]
        by_cases hd : s.page_bits q = (PROT_READ ||| PROT_WRITE)
        · simp [disk_after_evict, hd]
        · have hclean : s.page_bits q = PROT_READ := by
            rcases hi.bits_cases q with h | h | h
            · exact absurd h hbv
            · exact h
            · exact absurd h hd
          simp only [disk_after_evict, hd, if_false]
          exact (hc q hq hclean).symm
      · rw [Function.update_noteq hqv, Function.update_noteq hqv]
        by_cases hb0 : s.page_bits q = 0
        · simp [hb0, disk_after_evict_ne s v q hqv]
        · simp only [hb0, ne_eq, not_false_eq_true, if_true]
          exact hother q hq hqv hb0

theorem coherent_upgrade (s : State) (page : Nat) (hc : Coherent s)
    (hb : s.page_bits page = PROT_READ) :
    Coherent (upgrade_result s page) ∧
      ∀ q, page_contents (upgrade_result s page) q = page_contents s q := by
  constructor
  · intro q hq hbq
    simp only [upgrade_result, Function.update_eq_self] at hq hbq ⊢
    by_cases hqp : q = page
    · subst hqp
      rw [Function.update_same] at hbq
      exact absurd hbq (by decide)
    · rw [Function.update_noteq hqp] at hbq
      exact hc q hq hbq
  · intro q
    simp only [page_contents, upgrade_result, Function.update_eq_self]
    by_cases hqp : q = page
    · subst hqp
      simp [hb, prot_read_ne_zero, prot_rw_ne_zero]
    · rw [Function.update_noteq hqp]

theorem coherent_handler (pol : Policy) (s : State) (page : Nat) (s1 : State) (hi : Inv s)
    (hc : Coherent s) (h : handler pol s page = some s1) :
    Coherent s1 ∧ ∀ q, q < s.npages → page_contents s1 q = page_contents s q := by
  obtain ⟨hp, hcase⟩ := handler_cases pol s page s1 h
  rcases hcase with ⟨h1, _, v, fi, dir, rest, h3, h4, _, h6⟩ | ⟨h1, _, fi, h3⟩ | ⟨h1, h2⟩ |
    ⟨_, _, h3⟩
  · rw [h6]; exact coherent_evict s page v fi dir rest hi hc hp h1 h3 h4
  · rw [h3]; exact coherent_fill s page fi hi hc hp h1
  · rw [h2]
    obtain ⟨k1, k2⟩ := coherent_upgrade s page hc h1
    exact ⟨k1, fun q _ => k2 q⟩
  · rw [h3]; exact ⟨hc, fun _ _ => rfl⟩

theorem program_store_keeps (s : State) (page val : Nat) (s1 : State) (hi : Inv s)
    (hc : Coherent s) (h : program_store s page val = some s1) : Inv s1 ∧ Coherent s1 := by
  unfold program_store at h
  by_cases hcond : page < s.npages ∧ s.page_bits page = (PROT_READ ||| PROT_WRITE)
  · simp only [hcond, and_self, if_true, Option.some.injEq] at h
    subst h
    obtain ⟨hp, hb⟩ := hcond
    have hbp : s.page_bits page ≠ 0 := by rw [hb]; exact prot_rw_ne_zero
    refine ⟨⟨hi.cf_le, hi.count, hi.frame_lt, hi.inj, hi.unmapped_zero, hi.bits_cases,
      hi.faults⟩, ?_⟩
    intro q hq hbq
    simp only at hq hbq ⊢
    have hb0 : s.page_bits q ≠ 0 := by rw [hbq]; exact prot_read_ne_zero
    have hqp : q ≠ page := by
      intro hqp
      rw [hqp, hb] at hbq
      exact absurd hbq (by decide)
    have hne : s.page_mapping q ≠ s.page_mapping page :=
      fun hm => hqp (hi.inj q page hq hp hb0 hbp hm)
    rw [Function.update_noteq hne]
    exact hc q hq hbq
  · simp [hcond] at h

theorem exec_keeps (pol : Policy) :
    ∀ (evs : List Event) (s s1 : State), Inv s → Coherent s → exec pol s evs = some s1 →
      Inv s1 ∧ Coherent s1 := by
  intro evs
  induction evs with
  | nil =>
    intro s s1 hi hc h
    simp only [exec, Option.some.injEq] at h
    subst h
    exact ⟨hi, hc⟩
  | cons ev rest ih =>
    intro s s1 hi hc h
    cases ev with
    | fault page =>
      simp only [exec] at h
      rcases hh : handler pol s page with _ | s2
      · simp [hh] at h
      · simp only [hh] at h
        exact ih s2 s1 (inv_handler pol s page s2 hi hh)
          (coherent_handler pol s page s2 hi hc hh).1 h
    | store page val =>
      simp only [exec] at h
      rcases hh : program_store s page val with _ | s2
      · simp [hh] at h
      · simp only [hh] at h
        obtain ⟨k1, k2⟩ := program_store_keeps s page val s2 hi hc hh
        exact ih s2 s1 k1 k2 h

/-- C20. Physical memory as `nframes` blocks, the disk as `npages` blocks, the workload
storing only into frames of pages with bits `PROT_READ|PROT_WRITE`. For each of the three
handlers, in every state reached from the initial state by faults and such stores (at
least one frame): every Resident-Clean page's frame holds exactly the contents of that
page's disk block; a handler call leaves the contents of every page (its frame if
resident, else its disk block) as they were and keeps the first property; in particular
a clean victim, dropped without write-back, has its contents in its disk block. -/
theorem C20_clean_frames_match_disk (pol : Policy) (npages nframes : Nat)
    (physmem disk : Nat → Nat) (draws : List Nat) (evs : List Event) (s : State)
    (hn : 1 ≤ nframes)
    (hrun : exec pol (init npages nframes physmem disk draws) evs = some s) :
    (∀ q, q < s.npages → s.page_bits q = PROT_READ →
        s.physmem (s.page_mapping q) = s.disk q) ∧
      (∀ page s1, handler pol s page = some s1 →
        (∀ q, q < s.npages → page_contents s1 q = page_contents s q) ∧
        (∀ q, q < s1.npages → s1.page_bits q = PROT_READ →
          s1.physmem (s1.page_mapping q) = s1.disk q) ∧
        (∀ v, v < s.npages → s.page_bits v = PROT_READ → s1.page_bits v = 0 →
          s1.disk v = s.physmem (s.page_mapping v) ∧ s1.disk v = s.disk v)) := by
  have _hn := hn
  have hc0 : Coherent (init npages nframes physmem disk draws) := by
    intro q _ hb
    simp only [init] at hb
    exact absurd hb.symm prot_read_ne_zero
  obtain ⟨hi, hc⟩ := exec_keeps pol evs _ s (inv_init _ _ _ _ _) hc0 hrun
  refine ⟨hc, ?_⟩
  intro page s1 h
  obtain ⟨hc1, hcont⟩ := coherent_handler pol s page s1 hi hc h
  refine ⟨hcont, hc1, ?_⟩
  intro v hv hbv hbv1
  have h1 := hcont v hv
  have hb0 : s.page_bits v ≠ 0 := by rw [hbv]; exact prot_read_ne_zero
  simp only [page_contents, hbv1, ne_eq, not_true_eq_false, if_false, hb0, not_false_eq_true,
    if_true] at h1
  exact ⟨h1, h1.trans (hc v hv hbv)⟩

/-- Witness of C20: FIFO, 3 pages, 2 frames; page 0 is loaded, made writable, stored into
(value 77), then evicted by the miss on page 2 after the miss on page 1: its disk block
holds 77 and the clean pages' frames match their disk blocks. -/
theorem C20_clean_frames_match_disk_witness :
    ∃ s, exec Policy.fifo (init 3 2 (fun _ => 0) (fun q => q + 10) [])
        [Event.fault 0, Event.fault 0, Event.store 0 77, Event.fault 1, Event.fault 2] =
        some s ∧
      s.disk 0 = 77 ∧ s.page_bits 0 = 0 ∧
      (∀ q, q < s.npages → s.page_bits q = PROT_READ →
        s.physmem (s.page_mapping q) = s.disk q) := by
  refine ⟨_, rfl, by decide, by decide, ?_⟩
  refine (C20_clean_frames_match_disk Policy.fifo 3 2 (fun _ => 0) (fun q => q + 10) []
    [Event.fault 0, Event.fault 0, Event.store 0 77, Event.fault 1, Event.fault 2] _
    (by decide) ?_).1
  rfl

/-! ## Sequential pages under FIFO -/

theorem run_append (pol : Policy) :
    ∀ (l1 l2 : List Nat) (s s1 : State), run pol s l1 = some s1 →
      run pol s (l1 ++ l2) = run pol s1 l2 := by
  intro l1
  induction l1 with
  | nil =>
    intro l2 s s1 h
    simp only [run, Option.some.injEq] at h
    subst h
    rfl
  | cons page rest ih =>
    intro l2 s s1 h
    simp only [List.cons_append, run] at h ⊢
    rcases hh : handler pol s page with _ | s2
    · simp [hh] at h
    · simp only [hh] at h ⊢
      exact ih l2 s2 s1 h

theorem fifo_handler_evict_eq (s : State) (page e v : Nat) (fi1 fi2 : Int)
    (hp : page < s.npages) (hb : s.page_bits page = 0)
    (hf : s.current_frames = s.nframes)
    (hscan : frame_scan s s.npages 0 = some e)
    (hpick : fifo_pick_valid s s.npages e s.fifo_index =
      some (v, s.page_mapping v, s.page_bits v, fi1))
    (hc : c_mod (fi1 + 1) s.nframes = some fi2)
    (hfr : s.page_mapping v < s.nframes) :
    fifo_handler s page = some (evict_result s page v fi2 s.bififo_direction s.rand) := by
  obtain ⟨hv, _, _, _, _⟩ := fifo_pick_valid_some _ _ _ _ _ _ _ _ hpick
  unfold fifo_handler
  simp only [page_table_get_entry, hp, if_true, Option.bind_eq_bind, Option.some_bind, hb]
  rw [if_pos hf, frame_scan_page_faults, hscan]
  simp only [Option.some_bind]
  rw [fifo_pick_valid_page_faults, hpick]
  by_cases hd : s.page_bits v = (PROT_READ ||| PROT_WRITE)
  · simp [hd, disk_write, page_table_set_entry, disk_read, hv, hp, hfr, hc, evict_result,
      disk_after_evict, hf]
  · simp [hd, disk_write, page_table_set_entry, disk_read, hv, hp, hfr, hc, evict_result,
      disk_after_evict, hf]

theorem fifo_pick_valid_skip (s : State) (hn : 0 < s.nframes) :
    ∀ (k left e : Nat) (fi : Int), k < left → e + k < s.npages →
      (∀ q, e ≤ q → q < e + k → s.page_bits q = 0) → s.page_bits (e + k) ≠ 0 →
      hand_in_range s.nframes fi →
      fifo_pick_valid s left e fi =
        some (e + k, s.page_mapping (e + k), s.page_bits (e + k),
          (fi + (k : Int)) % (s.nframes : Int)) := by
  intro k
  induction k with
  | zero =>
    intro left e fi hl he _ hb hr
    obtain ⟨l, rfl⟩ : ∃ l, left = l + 1 := ⟨left - 1, by omega⟩
    rw [Nat.add_zero] at he hb ⊢
    rw [fifo_pick_valid_resident s l e fi he hb]
    obtain ⟨h0, h1⟩ := hr
    simp only [Nat.cast_zero, Int.add_zero]
    rw [Int.emod_eq_of_lt h0 h1]
    rfl
  | succ k ih =>
    intro left e fi hl he hz hb hr
    obtain ⟨l, rfl⟩ : ∃ l, left = l + 1 := ⟨left - 1, by omega⟩
    have he0 : e < s.npages := by omega
    have hb0 : s.page_bits e = 0 := hz e (le_refl _) (by omega)
    have hnz : (s.nframes : Int) ≠ 0 := by omega
    obtain ⟨h0, h1⟩ := hr
    have hmod : (e + 1) % s.npages = e + 1 := Nat.mod_eq_of_lt (by omega)
    unfold fifo_pick_valid
    simp only [page_table_get_entry, he0, if_true, hb0, c_mod, hnz, if_false, hmod]
    rw [Int.tmod_eq_emod (by omega) (by omega)]
    have hr1 : hand_in_range s.nframes ((fi + 1) % (s.nframes : Int)) :=
      ⟨Int.emod_nonneg _ hnz, Int.emod_lt_of_pos _ (by omega)⟩
    have hidx : e + 1 + k = e + (k + 1) := by omega
    rw [ih l (e + 1) _ (by omega) (by omega)
      (fun q h1 h2 => hz q (by omega) (by omega)) (by rw [hidx]; exact hb) hr1, hidx,
      Int.emod_add_emod]
    have : fi + 1 + (k : Int) = fi + ((k + 1 : Nat) : Int) := by push_cast; ring
    rw [this]

theorem c_mod_seq (n m : Nat) (hn : 1 ≤ n) :
    c_mod (((m % n : Nat) : Int) + 1) n = some (((m + 1) % n : Nat) : Int) := by
  have hnz : (n : Int) ≠ 0 := by omega
  simp only [c_mod, hnz, if_false, Option.some.injEq]
  rw [Int.tmod_eq_emod (by omega) (by omega)]
  push_cast
  rw [Int.emod_add_emod]

theorem sub_mod_self_of_le (n m : Nat) (h : n ≤ m) : (m - n) % n = m % n := by
  have hm : m = (m - n) + n := by omega
  conv_rhs => rw [hm]
  rw [Nat.add_mod_right]

theorem fifo_handler_fill_eq (s : State) (page : Nat) (fi1 : Int) (hp : page < s.npages)
    (hb : s.page_bits page = 0) (hf : s.current_frames < s.nframes)
    (hc : c_mod (s.fifo_index + 1) s.nframes = some fi1) :
    fifo_handler s page = some (fill_result s page fi1) := by
  have hne : s.current_frames ≠ s.nframes := Nat.ne_of_lt hf
  simp [fifo_handler, page_table_get_entry, hp, hb, hne, page_table_set_entry,
    disk_read, hf, fill_result, hc]

theorem seq_fill_ok (np n m : Nat) (s : State) (hmn : m < n)
    (hok : seq_state_ok np n m s) :
    seq_state_ok np n (m + 1)
      (upgrade_result (fill_result s m (((m + 1) % n : Nat) : Int)) m) := by
  obtain ⟨hnp, hnf, hbits, hmap, hcf, hfi, hpf, hdr, hdw⟩ := hok
  refine ⟨hnp, hnf, ?_, ?_, ?_, rfl, ?_, ?_, ?_⟩
  · intro q
    simp only [upgrade_result, fill_result]
    by_cases hq : q = m
    · subst hq
      rw [Function.update_same, if_pos (by omega)]
    · rw [Function.update_noteq hq, Function.update_noteq hq, hbits q]
      have hiff : (m - n ≤ q ∧ q < m) ↔ (m + 1 - n ≤ q ∧ q < m + 1) := by omega
      simp only [hiff]
  · intro q
    simp only [upgrade_result, fill_result, Function.update_eq_self]
    by_cases hq : q = m
    · subst hq
      rw [Function.update_same, if_pos (by omega), Nat.mod_eq_of_lt hmn, hcf]
      omega
    · rw [Function.update_noteq hq, hmap q]
      have hiff : (m - n ≤ q ∧ q < m) ↔ (m + 1 - n ≤ q ∧ q < m + 1) := by omega
      simp only [hiff]
  · simp only [upgrade_result, fill_result]
    omega
  · simp only [upgrade_result, fill_result]
    omega
  · simp only [upgrade_result, fill_result]
    omega
  · simp only [upgrade_result, fill_result]
    omega

theorem seq_evict_ok (np n m : Nat) (s : State) (hn : 1 ≤ n) (hnm : n ≤ m) (dir : Bool)
    (rest : List Nat) (hok : seq_state_ok np n m s) :
    seq_state_ok np n (m + 1)
      (upgrade_result (evict_result s m (m - n) (((m + 1) % n : Nat) : Int) dir rest) m) := by
  obtain ⟨hnp, hnf, hbits, hmap, hcf, hfi, hpf, hdr, hdw⟩ := hok
  have hvm : m - n ≠ m := by omega
  have hbv : s.page_bits (m - n) = (PROT_READ ||| PROT_WRITE) := by
    rw [hbits, if_pos (by omega)]
  refine ⟨hnp, hnf, ?_, ?_, ?_, rfl, ?_, ?_, ?_⟩
  · intro q
    simp only [upgrade_result, evict_result]
    by_cases hq : q = m
    · subst hq
      rw [Function.update_same, if_pos (by omega)]
    · rw [Function.update_noteq hq, Function.update_noteq hq]
      by_cases hqv : q = m - n
      · rw [hqv, Function.update_same, if_neg (by omega)]
      · rw [Function.update_noteq hqv, hbits q]
        have hiff : (m - n ≤ q ∧ q < m) ↔ (m + 1 - n ≤ q ∧ q < m + 1) := by omega
        simp only [hiff]
  · intro q
    simp only [upgrade_result, evict_result, Function.update_eq_self]
    by_cases hq : q = m
    · subst hq
      rw [Function.update_same, if_pos (by omega), hmap, if_pos (by omega)]
      exact sub_mod_self_of_le n q hnm
    · rw [Function.update_noteq hq]
      by_cases hqv : q = m - n
      · rw [hqv, Function.update_same, if_neg (by omega)]
      · rw [Function.update_noteq hqv, hmap q]
        have hiff : (m - n ≤ q ∧ q < m) ↔ (m + 1 - n ≤ q ∧ q < m + 1) := by omega
        simp only [hiff]
  · simp only [upgrade_result, evict_result]
    omega
  · simp only [upgrade_result, evict_result]
    omega
  · simp only [upgrade_result, evict_result]
    omega
  · simp only [upgrade_result, evict_result, hbv, if_true]
    omega

theorem seq_scan_pick (np n m : Nat) (s : State) (hn : 1 ≤ n) (hnm : n ≤ m) (hm : m < np)
    (hok : seq_state_ok np n m s) :
    ∃ e, frame_scan s s.npages 0 = some e ∧
      fifo_pick_valid s s.npages e s.fifo_index =
        some (m - n, s.page_mapping (m - n), s.page_bits (m - n), ((m % n : Nat) : Int)) := by
  obtain ⟨hnp, hnf, hbits, hmap, hcf, hfi, hpf, hdr, hdw⟩ := hok
  have hbv : s.page_bits (m - n) ≠ 0 := by
    rw [hbits, if_pos (by omega)]
    exact prot_rw_ne_zero
  have hlow : ∀ q, q < m - n → s.page_bits q = 0 ∧ s.page_mapping q = 0 := by
    intro q hq
    rw [hbits, hmap, if_neg (by omega), if_neg (by omega)]
    exact ⟨rfl, rfl⟩
  have hmv : s.page_mapping (m - n) = m % n := by
    rw [hmap, if_pos (by omega)]
    exact sub_mod_self_of_le n m hnm
  have hrange : hand_in_range s.nframes s.fifo_index := by
    rw [hfi, hnf]
    have := Nat.mod_lt m (show 0 < n by omega)
    exact ⟨by omega, by omega⟩
  have hn0 : 0 < s.nframes := by omega
  by_cases h0 : m % n = 0
  · have hm0 : (s.page_mapping 0 : Int) = s.fifo_index := by
      rw [hfi, h0, hmap]
      split
      · simp
      · rfl
    have hscan : frame_scan s s.npages 0 = some 0 :=
      frame_scan_first s s.npages 0 (by omega) hm0 (fun q hq => by omega)
    refine ⟨0, hscan, ?_⟩
    have hskip := fifo_pick_valid_skip s hn0 (m - n) s.npages 0 s.fifo_index (by omega)
      (by omega) (fun q _ hq => (hlow q (by omega)).1) (by rw [Nat.zero_add]; exact hbv) hrange
    rw [Nat.zero_add] at hskip
    rw [hskip, hfi, h0, hnf]
    have hz : (m - n) % n = 0 := by rw [sub_mod_self_of_le n m hnm]; exact h0
    have hcast : ((0 : Nat) : Int) + ((m - n : Nat) : Int) = (((m - n : Nat)) : Int) := by simp
    rw [hcast, ← Int.natCast_mod, hz]
  · have hmv2 : (s.page_mapping (m - n) : Int) = s.fifo_index := by rw [hfi, hmv]
    have hscan : frame_scan s s.npages 0 = some (m - n) := by
      refine frame_scan_first s s.npages (m - n) (by omega) hmv2 ?_
      intro q hq
      rw [(hlow q hq).2, hfi]
      intro hc
      have : (0 : Nat) = m % n := by exact_mod_cast hc
      exact h0 this.symm
    refine ⟨m - n, hscan, ?_⟩
    obtain ⟨l, hl⟩ : ∃ l, s.npages = l + 1 := ⟨s.npages - 1, by omega⟩
    rw [hl, fifo_pick_valid_resident s l (m - n) s.fifo_index (by omega) hbv, hfi]

theorem seq_step (np n m : Nat) (s : State) (hn : 1 ≤ n) (hm : m < np)
    (hok : seq_state_ok np n m s) :
    ∃ s1 s2, handler Policy.fifo s m = some s1 ∧ handler Policy.fifo s1 m = some s2 ∧
      seq_state_ok np n (m + 1) s2 ∧
      (n ≤ m → s.page_bits (m - n) = (PROT_READ ||| PROT_WRITE) ∧
        s1 = evict_result s m (m - n) (((m + 1) % n : Nat) : Int) s.bififo_direction s.rand) := by
  have hok0 := hok
  obtain ⟨hnp, hnf, hbits, hmap, hcf, hfi, hpf, hdr, hdw⟩ := hok
  have hp : m < s.npages := by omega
  have hbm : s.page_bits m = 0 := by rw [hbits, if_neg (by omega)]
  have hc := c_mod_seq n m hn
  by_cases hmn : m < n
  · have hf : s.current_frames < s.nframes := by omega
    have hc1 : c_mod (s.fifo_index + 1) s.nframes = some (((m + 1) % n : Nat) : Int) := by
      rw [hfi, hnf]; exact hc
    have h1 := fifo_handler_fill_eq s m _ hp hbm hf hc1
    have hb1 : (fill_result s m (((m + 1) % n : Nat) : Int)).page_bits m = PROT_READ := by
      simp [fill_result]
    have h2 := handler_upgrade_eq Policy.fifo
      (fill_result s m (((m + 1) % n : Nat) : Int)) m hp hb1
    exact ⟨_, _, h1, h2, seq_fill_ok np n m s hmn hok0, fun h => by omega⟩
  · have hnm : n ≤ m := by omega
    have hf : s.current_frames = s.nframes := by omega
    obtain ⟨e, hscan, hpick⟩ := seq_scan_pick np n m s hn hnm hm hok0
    have hc1 : c_mod (((m % n : Nat) : Int) + 1) s.nframes = some (((m + 1) % n : Nat) : Int) := by
      rw [hnf]; exact hc
    have hfr : s.page_mapping (m - n) < s.nframes := by
      rw [hmap, if_pos (by omega), hnf]
      exact Nat.mod_lt _ (by omega)
    have h1 := fifo_handler_evict_eq s m e (m - n) _ _ hp hbm hf hscan hpick hc1 hfr
    have hb1 : (evict_result s m (m - n) (((m + 1) % n : Nat) : Int) s.bififo_direction
        s.rand).page_bits m = PROT_READ := by
      simp [evict_result]
    have h2 := handler_upgrade_eq Policy.fifo
      (evict_result s m (m - n) (((m + 1) % n : Nat) : Int) s.bififo_direction s.rand) m hp hb1
    refine ⟨_, _, h1, h2, seq_evict_ok np n m s hn hnm _ _ hok0, fun _ => ⟨?_, rfl⟩⟩
    rw [hbits, if_pos (by omega)]

theorem seq_init_ok (np n : Nat) (physmem disk : Nat → Nat) (draws : List Nat) :
    seq_state_ok np n 0 (init np n physmem disk draws) := by
  refine ⟨rfl, rfl, ?_, ?_, ?_, ?_, rfl, rfl, ?_⟩
  · intro q; rw [if_neg (by omega)]; rfl
  · intro q; rw [if_neg (by omega)]; rfl
  · simp [init]
  · simp [init]
  · simp [init]

theorem seq_run (np n : Nat) (physmem disk : Nat → Nat) (draws : List Nat) (hn : 1 ≤ n) :
    ∀ N, N ≤ np → ∃ s, run Policy.fifo (init np n physmem disk draws) (read_write_refs N) =
      some s ∧ seq_state_ok np n N s := by
  intro N
  induction N with
  | zero => intro _; exact ⟨_, rfl, seq_init_ok np n physmem disk draws⟩
  | succ N ih =>
    intro hN
    obtain ⟨s, hrun, hok⟩ := ih (by omega)
    obtain ⟨s1, s2, h1, h2, hok2, _⟩ := seq_step np n N s hn (by omega) hok
    refine ⟨s2, ?_, hok2⟩
    simp only [read_write_refs]
    rw [run_append Policy.fifo _ _ _ s hrun]
    simp only [run, h1, h2]

/-- C11. FIFO policy, at least one frame, `N <= npages`: from the initial state, when the
pages `0, 1, ..., N - 1` are referenced in that order, each by a read fault followed at
once by a write fault, the run returns with `page_faults = N`, `disk_reads = N` and
`disk_writes = max(0, N - nframes)`; and the page evicted to admit page `nframes + k` is
page `k` and no other, dirty at that moment (so its eviction is one disk write), its
frame going to page `nframes + k`. -/
theorem C11_fifo_sequential_read_write (npages nframes N : Nat) (physmem disk : Nat → Nat)
    (draws : List Nat) (hn : 1 ≤ nframes) (hN : N ≤ npages) :
    ∃ s, run Policy.fifo (init npages nframes physmem disk draws) (read_write_refs N) =
        some s ∧
      s.page_faults = N ∧ s.disk_reads = N ∧ s.disk_writes = N - nframes ∧
      (s.disk_writes : Int) = max 0 ((N : Int) - (nframes : Int)) ∧
      ∀ k, nframes + k < N →
        ∃ sk s1, run Policy.fifo (init npages nframes physmem disk draws)
            (read_write_refs (nframes + k)) = some sk ∧
          handler Policy.fifo sk (nframes + k) = some s1 ∧
          sk.page_bits k = (PROT_READ ||| PROT_WRITE) ∧
          s1.page_bits k = 0 ∧
          (∀ w, w < npages → sk.page_bits w ≠ 0 → s1.page_bits w = 0 → w = k) ∧
          s1.page_mapping (nframes + k) = sk.page_mapping k ∧
          s1.disk_writes = sk.disk_writes + 1 := by
  obtain ⟨s, hrun, hok⟩ := seq_run npages nframes physmem disk draws hn N hN
  obtain ⟨_, _, _, _, _, _, hpf, hdr, hdw⟩ := hok
  refine ⟨s, hrun, hpf, hdr, hdw, by rw [hdw]; omega, ?_⟩
  intro k hk
  obtain ⟨sk, hrunk, hokk⟩ :=
    seq_run npages nframes physmem disk draws hn (nframes + k) (by omega)
  obtain ⟨s1, s2, h1, _, _, hev⟩ := seq_step npages nframes (nframes + k) sk hn (by omega) hokk
  obtain ⟨hdirty, hs1⟩ := hev (by omega)
  rw [Nat.add_sub_cancel_left] at hdirty hs1
  have hkp : k ≠ nframes + k := by omega
  have hbp : sk.page_bits (nframes + k) = 0 := by
    rw [hokk.2.2.1, if_neg (by omega)]
  refine ⟨sk, s1, hrunk, h1, hdirty, ?_, ?_, ?_, ?_⟩
  · rw [hs1]; simp [evict_result, Function.update_noteq hkp]
  · intro w _ hbw hw1
    by_contra hwk
    have hwp : w ≠ nframes + k := fun h => hbw (h ▸ hbp)
    rw [hs1] at hw1
    simp only [evict_result, Function.update_noteq hwp, Function.update_noteq hwk] at hw1
    exact hbw hw1
  · rw [hs1]; simp [evict_result]
  · rw [hs1]; simp [evict_result, hdirty]

/-- Witness of C11, the instance of the scenario: 4 pages, 2 frames, pages 0, 1, 2, 3 each
read then written give 4 page faults, 4 disk reads and 2 disk writes. -/
theorem C11_fifo_sequential_read_write_witness :
    ∃ s, run Policy.fifo (init 4 2 (fun _ => 0) (fun q => q) []) (read_write_refs 4) =
        some s ∧
      s.page_faults = 4 ∧ s.disk_reads = 4 ∧ s.disk_writes = 2 :=
  (C11_fifo_sequential_read_write 4 2 4 (fun _ => 0) (fun q => q) [] (by decide)
    (by decide)).imp (fun _ h => ⟨h.1, h.2.1, h.2.2.1, h.2.2.2.1⟩)

end VirtMem
